import Mathlib

/-!
Verification of the brand-mention checking backend (src/backend/server.js).

The development shallowly embeds the two core components of the server:

* the mention detector detectBrandMention (server.js lines 50-103), together
  with a model of the JavaScript RegExp engine (construction and test) for
  the patterns that the detector builds, and
* the generation orchestrator (the model-candidate loop with canned-response
  fallback, server.js lines 149-227) and the error branch of the request
  handler (lines 247-266).

Strings are modelled as lists of characters (JavaScript string indices and
lengths agree with this for the ASCII inputs considered here).  The
JavaScript builtins used by the code (toLowerCase, trim, split, includes,
indexOf, replace, RegExp) are modelled explicitly below; toLowerCase is
modelled as ASCII case folding.  Fallible operations (RegExp construction
can throw a SyntaxError) are modelled with Except.
-/

namespace Enlighten

/-- Whitespace characters recognised by JavaScript (the \s class, trim and
the \s+ split): ASCII whitespace, NBSP, the Unicode space separators, line
and paragraph separators and the BOM. -/
def jsIsWs (c : Char) : Bool :=
  c = ' ' || c = '\t' || c = '\n' || c = Char.ofNat 11 || c = Char.ofNat 12 ||
  c = Char.ofNat 13 || c = Char.ofNat 0xa0 || c = Char.ofNat 0x1680 ||
  (Char.ofNat 0x2000 ≤ c && c ≤ Char.ofNat 0x200a) ||
  c = Char.ofNat 0x2028 || c = Char.ofNat 0x2029 || c = Char.ofNat 0x202f ||
  c = Char.ofNat 0x205f || c = Char.ofNat 0x3000 || c = Char.ofNat 0xfeff

/-- Line terminators, which the JavaScript regular-expression dot does not
match. -/
def jsIsLineTerm (c : Char) : Bool :=
  c = '\n' || c = Char.ofNat 13 || c = Char.ofNat 0x2028 || c = Char.ofNat 0x2029

/-- Characters kept by the stripping step replace(/[^a-z0-9]/g, '') of the
partial-word pass: lower-case ASCII letters and digits. -/
def isLowerAlnum (c : Char) : Bool :=
  ('a' ≤ c && c ≤ 'z') || ('0' ≤ c && c ≤ '9')

/-- Model of String.prototype.toLowerCase, restricted to ASCII case
folding (Char.toLower maps A-Z to a-z and fixes everything else). -/
def listToLower (s : List Char) : List Char :=
  s.map Char.toLower

/-- Model of String.prototype.trim: drop JavaScript whitespace from both
ends. -/
def jsTrim (s : List Char) : List Char :=
  ((s.dropWhile jsIsWs).reverse.dropWhile jsIsWs).reverse

/-- Model of String.prototype.replace(/[^a-z0-9]/g, ''). -/
def stripNonAlnum (s : List Char) : List Char :=
  s.filter isLowerAlnum

/-- Model of String.prototype.split on a single-character separator class,
as in text.split(/[.\n]/): every separator character cuts, adjacent
separators produce empty pieces, and the result is never empty. -/
def splitChars (p : Char → Bool) (cs : List Char) : List (List Char) :=
  go cs []
where
  go : List Char → List Char → List (List Char)
    | [], acc => [acc.reverse]
    | c :: rest, acc =>
      if p c then acc.reverse :: go rest [] else go rest (c :: acc)

/-- Model of String.prototype.split on a one-or-more separator run, as in
split(/\s+/): maximal nonempty runs of separator characters cut, so a
leading or trailing run contributes an empty piece (go accumulates the
current piece, skip consumes the rest of a separator run). -/
def splitRuns (p : Char → Bool) (cs : List Char) : List (List Char) :=
  go cs []
where
  go : List Char → List Char → List (List Char)
    | [], acc => [acc.reverse]
    | c :: rest, acc =>
      if p c then acc.reverse :: skip rest else go rest (c :: acc)
  skip : List Char → List (List Char)
    | [] => [[]]
    | c :: rest => if p c then skip rest else go rest [c]

/-- Model of String.prototype.includes: sub occurs contiguously inside s
(every string includes the empty string). -/
def listContainsSub (s sub : List Char) : Bool :=
  sub.isPrefixOf s ||
    match s with
    | [] => false
    | _ :: rest => listContainsSub rest sub

/-- Model of String.prototype.indexOf: index of the first occurrence of sub
in s, or -1 when there is none. -/
def jsIndexOf (s sub : List Char) : Int :=
  go s 0
where
  go : List Char → Int → Int
    | cs, i =>
      if sub.isPrefixOf cs then i
      else
        match cs with
        | [] => -1
        | _ :: rest => go rest (i + 1)

/-- Model of List.intercalate at the character-list level, used to build the
loose-punctuation pattern brandWords.join(sep). -/
def listJoinSep (sep : List Char) : List (List Char) → List Char
  | [] => []
  | [w] => w
  | w :: ws => w ++ sep ++ listJoinSep sep ws

/-!
### Model of the JavaScript RegExp engine

detectBrandMention builds a pattern string from the (unescaped) brand words
and hands it to new RegExp(pattern, 'i'); construction throws a SyntaxError
on an invalid pattern.  The model below is a pattern parser plus a
Brzozowski-derivative matcher covering the regular-expression constructs
reachable from the patterns the detector builds: literals, the dot,
character classes (with the \s, \d and \w escapes and ranges), grouping,
alternation, the *, + and ? quantifiers, including lazy variants (which
coincide with the greedy ones for the boolean test used by the code),
braced quantifiers with their literal fallback for non-quantifier brace
text, and the legacy octal, hex, unicode and control escapes of the
Annex B web grammar.

Deliberate simplifications of unexercised corners, documented here: the
anchors and word-boundary escapes are modelled as empty matches, lookahead
and named groups are rejected as invalid, every group is non-capturing (so
a digit escape is always a legacy octal escape, never a backreference),
and a class escape covers a single class item.  The 'i' flag is modelled
by matching the pattern (whose literals come from the already lower-cased
brand name) against the lower-cased input. -/

/-- An atom of a character class: a literal member, a range, or one of the
builtin class escapes. -/
inductive ClassAtom where
  | ch (c : Char)
  | range (lo hi : Char)
  | wsClass
  | notWsClass
  | digitClass
  | notDigitClass
  | wordClass
  | notWordClass
deriving DecidableEq, Repr

/-- Does a single class atom match a character. -/
def classAtomMatch (a : ClassAtom) (c : Char) : Bool :=
  match a with
  | .ch d => c = d
  | .range lo hi => lo ≤ c && c ≤ hi
  | .wsClass => jsIsWs c
  | .notWsClass => !jsIsWs c
  | .digitClass => '0' ≤ c && c ≤ '9'
  | .notDigitClass => !('0' ≤ c && c ≤ '9')
  | .wordClass => ('a' ≤ c && c ≤ 'z') || ('A' ≤ c && c ≤ 'Z') ||
      ('0' ≤ c && c ≤ '9') || c = '_'
  | .notWordClass => !(('a' ≤ c && c ≤ 'z') || ('A' ≤ c && c ≤ 'Z') ||
      ('0' ≤ c && c ≤ '9') || c = '_')

/-- Does a (possibly negated) character class match a character. -/
def classMatch (neg : Bool) (items : List ClassAtom) (c : Char) : Bool :=
  if neg then !(items.any (fun a => classAtomMatch a c))
  else items.any (fun a => classAtomMatch a c)

/-- Abstract syntax of the modelled regular expressions. -/
inductive JSRegex where
  | fail
  | eps
  | lit (c : Char)
  | anychar
  | cls (neg : Bool) (items : List ClassAtom)
  | cat (r1 r2 : JSRegex)
  | alt (r1 r2 : JSRegex)
  | star (r : JSRegex)
deriving DecidableEq, Repr

/-- The matching relation: RMatch r s holds when the regular expression r
matches exactly the character list s. -/
inductive RMatch : JSRegex → List Char → Prop where
  | eps : RMatch .eps []
  | lit (c : Char) : RMatch (.lit c) [c]
  | anychar (c : Char) : jsIsLineTerm c = false → RMatch .anychar [c]
  | cls (neg : Bool) (items : List ClassAtom) (c : Char) :
      classMatch neg items c = true → RMatch (.cls neg items) [c]
  | cat {r1 r2 : JSRegex} {s1 s2 : List Char} :
      RMatch r1 s1 → RMatch r2 s2 → RMatch (.cat r1 r2) (s1 ++ s2)
  | altL {r1 r2 : JSRegex} {s : List Char} :
      RMatch r1 s → RMatch (.alt r1 r2) s
  | altR {r1 r2 : JSRegex} {s : List Char} :
      RMatch r2 s → RMatch (.alt r1 r2) s
  | starNil (r : JSRegex) : RMatch (.star r) []
  | starCat {r : JSRegex} {s1 s2 : List Char} :
      RMatch r s1 → RMatch (.star r) s2 → RMatch (.star r) (s1 ++ s2)

/-- Does the regular expression match the empty string. -/
def nullable : JSRegex → Bool
  | .fail => false
  | .eps => true
  | .lit _ => false
  | .anychar => false
  | .cls _ _ => false
  | .cat r1 r2 => nullable r1 && nullable r2
  | .alt r1 r2 => nullable r1 || nullable r2
  | .star _ => true

/-- Brzozowski derivative of the regular expression by one character. -/
def deriv (c : Char) : JSRegex → JSRegex
  | .fail => .fail
  | .eps => .fail
  | .lit d => if d = c then .eps else .fail
  | .anychar => if jsIsLineTerm c then .fail else .eps
  | .cls neg items => if classMatch neg items c then .eps else .fail
  | .cat r1 r2 =>
      if nullable r1 then .alt (.cat (deriv c r1) r2) (deriv c r2)
      else .cat (deriv c r1) r2
  | .alt r1 r2 => .alt (deriv c r1) (deriv c r2)
  | .star r => .cat (deriv c r) (.star r)

/-- Executable whole-string matching via derivatives. -/
def fullMatch (r : JSRegex) : List Char → Bool
  | [] => nullable r
  | c :: cs => fullMatch (deriv c r) cs

/-- Does some prefix of the input match the regular expression. -/
def matchesPre (r : JSRegex) : List Char → Bool
  | [] => nullable r
  | c :: cs => nullable r || matchesPre (deriv c r) cs

/-- Model of RegExp.prototype.test: does the regular expression match some
contiguous substring of the input. -/
def testRe (r : JSRegex) : List Char → Bool
  | [] => nullable r
  | c :: cs => matchesPre r (c :: cs) || testRe r cs

/-- Hexadecimal digit test. -/
def isHexDigit (c : Char) : Bool :=
  ('0' ≤ c && c ≤ '9') || ('a' ≤ c && c ≤ 'f') || ('A' ≤ c && c ≤ 'F')

/-- Value of a hexadecimal digit. -/
def hexVal (c : Char) : Nat :=
  if '0' ≤ c && c ≤ '9' then c.toNat - 48
  else if 'a' ≤ c && c ≤ 'f' then c.toNat - 87
  else c.toNat - 55

/-- Octal digit test. -/
def isOctDigit (c : Char) : Bool :=
  '0' ≤ c && c ≤ '7'

/-- Value of a decimal or octal digit character. -/
def digitVal (c : Char) : Nat :=
  c.toNat - 48

/-- ASCII letter test, for the control letter of a control escape. -/
def isAsciiLetter (c : Char) : Bool :=
  ('a' ≤ c && c ≤ 'z') || ('A' ≤ c && c ≤ 'Z')

/-- Meaning of a single-character escape sequence outside a character
class.  The word-boundary escapes are modelled as empty matches
(unexercised by the patterns the detector builds); unknown escapes are
identity escapes as in the Annex B grammar.  Digit, x, u and c escapes
consume further characters and are completed by the token parser. -/
def escTok (e : Char) : JSRegex :=
  if e = 's' then .cls false [.wsClass]
  else if e = 'S' then .cls true [.wsClass]
  else if e = 'd' then .cls false [.digitClass]
  else if e = 'D' then .cls true [.digitClass]
  else if e = 'w' then .cls false [.wordClass]
  else if e = 'W' then .cls true [.wordClass]
  else if e = 'n' then .lit '\n'
  else if e = 't' then .lit '\t'
  else if e = 'r' then .lit (Char.ofNat 13)
  else if e = 'f' then .lit (Char.ofNat 12)
  else if e = 'v' then .lit (Char.ofNat 11)
  else if e = 'b' || e = 'B' then .eps
  else .lit e

/-- Meaning of an escape sequence inside a character class, modelled at
single-character granularity (multi-character class escapes such as hex or
octal escapes inside a class, and ranges with escaped endpoints, are
outside the modelled subset; no pattern the verified theorems rely on
reaches them). -/
def classEsc (e : Char) : ClassAtom :=
  if e = 's' then .wsClass
  else if e = 'S' then .notWsClass
  else if e = 'd' then .digitClass
  else if e = 'D' then .notDigitClass
  else if e = 'w' then .wordClass
  else if e = 'W' then .notWordClass
  else if e = 'n' then .ch '\n'
  else if e = 't' then .ch '\t'
  else if e = 'r' then .ch (Char.ofNat 13)
  else if e = 'f' then .ch (Char.ofNat 12)
  else if e = 'v' then .ch (Char.ofNat 11)
  else if e = '0' then .ch (Char.ofNat 0)
  else if e = 'b' then .ch (Char.ofNat 8)
  else .ch e

/-- Tokens of the pattern grammar.  A raw source character (rawch) is kept
distinct from escape tokens and from the raw brace tokens, because only
raw characters can take part in a braced quantifier or continue a
multi-character escape. -/
inductive Tok where
  | atom (r : JSRegex)
  | rawch (c : Char)
  | tesc (e : Char)
  | tlbrace
  | trbrace
  | tstar
  | tplus
  | topt
  | lparen
  | rparen
  | talt
deriving DecidableEq, Repr

mutual

/-- Tokenizes a pattern string.  Unbalanced brackets and a trailing
backslash are syntax errors, as in JavaScript; named groups and lookahead
groups are outside the modelled subset and are rejected.  A backslash and
its next character become an escape token whose multi-character forms
(legacy octal, hex, unicode and control escapes) the token parser
completes from the following raw characters. -/
def tokenize : List Char → Except String (List Tok)
  | [] => .ok []
  | '\\' :: [] => .error "Backslash at end of pattern"
  | '\\' :: e :: rest => do
      let ts ← tokenize rest
      .ok (.tesc e :: ts)
  | '[' :: '^' :: rest => lexCls true [] rest
  | '[' :: rest => lexCls false [] rest
  | '(' :: '?' :: ':' :: rest => do
      let ts ← tokenize rest
      .ok (.lparen :: ts)
  | '(' :: '?' :: _ => .error "Invalid group"
  | c :: rest => do
      let ts ← tokenize rest
      let tk : Tok :=
        if c = '*' then .tstar
        else if c = '+' then .tplus
        else if c = '?' then .topt
        else if c = '|' then .talt
        else if c = '(' then .lparen
        else if c = ')' then .rparen
        else if c = '.' then .atom .anychar
        else if c = '^' then .atom .eps
        else if c = '$' then .atom .eps
        else if c = Char.ofNat 123 then .tlbrace
        else if c = Char.ofNat 125 then .trbrace
        else .rawch c
      .ok (tk :: ts)

/-- Reads the items of a character class up to the closing bracket (the
items read so far are accumulated in reverse), then continues tokenizing;
an unterminated class is a syntax error, as in JavaScript. -/
def lexCls (neg : Bool) (acc : List ClassAtom) : List Char → Except String (List Tok)
  | [] => .error "Unterminated character class"
  | ']' :: rest => do
      let ts ← tokenize rest
      .ok (.atom (.cls neg acc.reverse) :: ts)
  | '\\' :: [] => .error "Unterminated character class"
  | '\\' :: e :: rest => lexCls neg (classEsc e :: acc) rest
  | a :: '-' :: b :: rest =>
      if b = ']' then do
        let ts ← tokenize rest
        .ok (.atom (.cls neg (acc.reverse ++ [.ch a, .ch '-'])) :: ts)
      else if b = '\\' then lexCls neg (.ch '-' :: .ch a :: acc) (b :: rest)
      else if a ≤ b then lexCls neg (.range a b :: acc) rest
      else .error "Range out of order in character class"
  | a :: rest => lexCls neg (.ch a :: acc) rest

end

/-- How a sequence atom has been quantified so far: not at all, by a greedy
quantifier (which a following question mark turns lazy), or by a lazy
quantifier (after which a further quantifier is a syntax error). -/
inductive QTag where
  | plain
  | greedy
  | lazyq
deriving DecidableEq, Repr

/-- A pending enclosing group: the alternatives and sequence atoms read so
far at the outer level (both stored in reverse order). -/
structure PFrame where
  alts : List JSRegex
  seq : List (JSRegex × QTag)
deriving Repr

/-- Folds a reversed list of sequence atoms into a concatenation. -/
def buildSeq (seq : List (JSRegex × QTag)) : JSRegex :=
  seq.foldl (fun acc a => .cat a.1 acc) .eps

/-- Folds a reversed list of finished alternatives onto the current one. -/
def buildAlts (alts : List JSRegex) (cur : JSRegex) : JSRegex :=
  alts.foldl (fun acc a => .alt a acc) cur

/-- n-fold concatenation of a regex in front of a tail, the desugaring of
the mandatory part of a braced quantifier. -/
def catN (r : JSRegex) : Nat → JSRegex → JSRegex
  | 0, tail => tail
  | n + 1, tail => .cat r (catN r n tail)

/-- n-fold optional repetition, the desugaring of the slack of a bounded
braced quantifier. -/
def optN (r : JSRegex) : Nat → JSRegex
  | 0 => .eps
  | n + 1 => .cat (.alt r .eps) (optN r n)

/-- State of a multi-character scan of the token parser: a braced
quantifier (just after the opening brace, reading the first number, just
after the comma, reading the second number), a legacy octal escape (how
many further octal digits may follow, value so far), a hex or unicode
escape (its escape letter and consumed digits for the literal fallback,
digits still needed, value so far), or a control escape waiting for its
control letter.  The consumed raw characters are kept where a scan that
fails to complete is replayed as literal text, as in the Annex B
grammar. -/
inductive ScanSt where
  | brStart
  | brFirst (ds : List Char) (n : Nat)
  | brComma (ds : List Char) (n : Nat)
  | brSecond (ds : List Char) (n : Nat) (m : Nat)
  | octSc (limit : Nat) (n : Nat)
  | hexSc (esc : Char) (ds : List Char) (need : Nat) (n : Nat)
  | ctrlSc
deriving DecidableEq, Repr

/-- State of the token parser: the group stack, the alternatives and
sequence read at the current level, and a pending multi-character scan. -/
structure PState where
  stack : List PFrame
  alts : List JSRegex
  seq : List (JSRegex × QTag)
  scan : Option ScanSt

/-- The literal replay of an incomplete scan: the raw characters of a
braced-quantifier scan (opening brace included), the escape letter and
consumed digits of a failed hex or unicode escape, or a literal backslash
and c for a control escape with no control letter. -/
def scanChars : ScanSt → List Char
  | .brStart => [Char.ofNat 123]
  | .brFirst ds _ => Char.ofNat 123 :: ds
  | .brComma ds _ => Char.ofNat 123 :: ds
  | .brSecond ds _ _ => Char.ofNat 123 :: ds
  | .octSc _ _ => []
  | .hexSc esc ds _ _ => esc :: ds
  | .ctrlSc => ['\\', 'c']

/-- Ends a pending scan: an octal escape yields the character read so far
(a shorter octal escape is still an escape), every other incomplete scan
is replayed as literal sequence atoms, as in the Annex B grammar. -/
def flushScan (st : PState) : PState :=
  match st.scan with
  | none => st
  | some (.octSc _ n) =>
      { st with
        scan := none
        seq := (JSRegex.lit (Char.ofNat n), QTag.plain) :: st.seq }
  | some sc =>
      { st with
        scan := none
        seq := (scanChars sc).foldl
          (fun sq c => (JSRegex.lit c, QTag.plain) :: sq) st.seq }

/-- Applies a completed braced quantifier to the preceding atom; with no
preceding unquantified atom it is a syntax error (the invalid braced
quantifier of the Annex B grammar), as are out-of-order bounds. -/
def applyQuant (st : PState) (lo : Nat) (hi : Option Nat) : Except String PState :=
  match st.seq with
  | (r, .plain) :: rest =>
      match hi with
      | none =>
          .ok { st with seq := (catN r lo (.star r), .greedy) :: rest }
      | some m =>
          if lo ≤ m then
            .ok { st with seq := (catN r lo (optN r (m - lo)), .greedy) :: rest }
          else .error "numbers out of order in brace quantifier"
  | _ => .error "Nothing to repeat"

/-- One step of the token parser with no scan pending.  A quantifier with
no preceding atom, a quantifier applied to an already (greedily or lazily)
quantified atom, and an unmatched closing parenthesis are syntax errors,
as in JavaScript; a question mark after a greedy quantifier is the lazy
variant, which has the same boolean test semantics; raw characters and raw
braces that take no part in a quantifier are literals. -/
def pstepPlain (st : PState) : Tok → Except String PState
  | .atom r => .ok { st with seq := (r, .plain) :: st.seq }
  | .rawch c => .ok { st with seq := (JSRegex.lit c, .plain) :: st.seq }
  | .tesc e => .ok { st with seq := (escTok e, .plain) :: st.seq }
  | .tlbrace =>
      .ok { st with seq := (JSRegex.lit (Char.ofNat 123), .plain) :: st.seq }
  | .trbrace =>
      .ok { st with seq := (JSRegex.lit (Char.ofNat 125), .plain) :: st.seq }
  | .tstar =>
      match st.seq with
      | (r, .plain) :: rest => .ok { st with seq := (.star r, .greedy) :: rest }
      | _ => .error "Nothing to repeat"
  | .tplus =>
      match st.seq with
      | (r, .plain) :: rest =>
          .ok { st with seq := (.cat r (.star r), .greedy) :: rest }
      | _ => .error "Nothing to repeat"
  | .topt =>
      match st.seq with
      | (r, .plain) :: rest => .ok { st with seq := (.alt r .eps, .greedy) :: rest }
      | (r, .greedy) :: rest => .ok { st with seq := (r, .lazyq) :: rest }
      | _ => .error "Nothing to repeat"
  | .lparen =>
      .ok { st with stack := ⟨st.alts, st.seq⟩ :: st.stack, alts := [], seq := [] }
  | .rparen =>
      match st.stack with
      | [] => .error "Unmatched close parenthesis"
      | fr :: stk =>
          .ok { st with
                stack := stk
                alts := fr.alts
                seq := (buildAlts st.alts (buildSeq st.seq), .plain) :: fr.seq }
  | .talt => .ok { st with alts := buildSeq st.seq :: st.alts, seq := [] }

/-- One step of the token parser.  An opening raw brace starts a
quantifier scan (ending any pending scan); inside a scan, raw characters
extend or complete it - digits and one comma for a braced quantifier,
completed by a raw closing brace that applies the quantifier, octal or hex
digits for the escape scans, a control letter for a control escape - and
any other token ends the scan (replaying an incomplete shape as literals)
before being processed normally, as in the Annex B grammar.  An escape
token starts the octal, hex, unicode or control scans for its
multi-character forms; its single-character forms act immediately. -/
def pstep (st : PState) : Tok → Except String PState
  | .rawch c =>
      match st.scan with
      | none => pstepPlain st (.rawch c)
      | some .brStart =>
          if c.isDigit then .ok { st with scan := some (.brFirst [c] (digitVal c)) }
          else pstepPlain (flushScan st) (.rawch c)
      | some (.brFirst ds n) =>
          if c.isDigit then
            .ok { st with scan := some (.brFirst (ds ++ [c]) (10 * n + digitVal c)) }
          else if c = ',' then
            .ok { st with scan := some (.brComma (ds ++ [c]) n) }
          else pstepPlain (flushScan st) (.rawch c)
      | some (.brComma ds n) =>
          if c.isDigit then
            .ok { st with scan := some (.brSecond (ds ++ [c]) n (digitVal c)) }
          else pstepPlain (flushScan st) (.rawch c)
      | some (.brSecond ds n m) =>
          if c.isDigit then
            .ok { st with scan := some (.brSecond (ds ++ [c]) n (10 * m + digitVal c)) }
          else pstepPlain (flushScan st) (.rawch c)
      | some (.octSc limit n) =>
          if isOctDigit c then
            if limit ≤ 1 then
              .ok { st with
                scan := none
                seq := (JSRegex.lit (Char.ofNat (8 * n + digitVal c)),
                  QTag.plain) :: st.seq }
            else
              .ok { st with scan := some (.octSc (limit - 1) (8 * n + digitVal c)) }
          else pstepPlain (flushScan st) (.rawch c)
      | some (.hexSc esc ds need n) =>
          if isHexDigit c then
            if need ≤ 1 then
              .ok { st with
                scan := none
                seq := (JSRegex.lit (Char.ofNat (16 * n + hexVal c)),
                  QTag.plain) :: st.seq }
            else
              .ok { st with
                scan := some (.hexSc esc (ds ++ [c]) (need - 1) (16 * n + hexVal c)) }
          else pstepPlain (flushScan st) (.rawch c)
      | some .ctrlSc =>
          if isAsciiLetter c then
            .ok { st with
              scan := none
              seq := (JSRegex.lit (Char.ofNat (c.toNat % 32)), QTag.plain) :: st.seq }
          else pstepPlain (flushScan st) (.rawch c)
  | .tesc e =>
      let st2 := flushScan st
      if isOctDigit e && e ≤ '3' then .ok { st2 with scan := some (.octSc 2 (digitVal e)) }
      else if isOctDigit e then .ok { st2 with scan := some (.octSc 1 (digitVal e)) }
      else if e = '8' || e = '9' then
        .ok { st2 with seq := (JSRegex.lit e, .plain) :: st2.seq }
      else if e = 'x' then .ok { st2 with scan := some (.hexSc 'x' [] 2 0) }
      else if e = 'u' then .ok { st2 with scan := some (.hexSc 'u' [] 4 0) }
      else if e = 'c' then .ok { st2 with scan := some .ctrlSc }
      else pstepPlain st2 (.tesc e)
  | .tlbrace => .ok { flushScan st with scan := some .brStart }
  | .trbrace =>
      match st.scan with
      | some (.brFirst _ n) => applyQuant { st with scan := none } n (some n)
      | some (.brComma _ n) => applyQuant { st with scan := none } n none
      | some (.brSecond _ n m) => applyQuant { st with scan := none } n (some m)
      | _ => pstepPlain (flushScan st) .trbrace
  | t => pstepPlain (flushScan st) t

/-- Runs the token parser over a token list; an unterminated group is a
syntax error, and a pending scan at the end is completed or replayed as
literal text. -/
def parseToks : PState → List Tok → Except String JSRegex
  | st, [] =>
      let st2 := flushScan st
      match st2.stack with
      | [] => .ok (buildAlts st2.alts (buildSeq st2.seq))
      | _ => .error "Unterminated group"
  | st, t :: ts =>
      match pstep st t with
      | .error e => .error e
      | .ok st' => parseToks st' ts

/-- Model of new RegExp(pattern): parse the pattern string or fail with a
SyntaxError message. -/
def parseRegex (pat : List Char) : Except String JSRegex := do
  let ts ← tokenize pat
  parseToks ⟨[], [], [], none⟩ ts

/-!
### The mention detector (server.js lines 50-103)
-/

/-- Result shape of detectBrandMention. -/
structure DetectionResult where
  mentioned : Bool
  position : Option Nat
deriving DecidableEq, Repr

/-- The segment separators: text.split(/[.\n]/). -/
def isDotNl (c : Char) : Bool :=
  c = '.' || c = '\n'

/-- The characters joining consecutive brand words in the loose-punctuation
pattern: the join string of brandWords.join, written between brackets in
the source as a class of whitespace, hyphen and underscore, starred. -/
def sepPatChars : List Char :=
  "[\\s\\-\\_]*".data

/-- Index of the first element satisfying the test, the shape of the
for-loops with early return over the segment array. -/
def firstIdx (p : List Char → Bool) : List (List Char) → Option Nat
  | [] => none
  | s :: rest => if p s then some 0 else (firstIdx p rest).map (· + 1)

/-- The exact-substring pass (lines 62-67): the first segment whose
lower-cased form includes the lower-cased trimmed brand name. -/
def pass1 (segments : List (List Char)) (brandLower : List Char) : Option Nat :=
  firstIdx (fun seg => listContainsSub (listToLower seg) brandLower) segments

/-- The loose-punctuation pass (lines 75-79): the first segment on which
the compiled pattern tests true; the 'i' flag is modelled by matching the
(already lower-case) pattern against the lower-cased segment. -/
def pass2 (re : JSRegex) (segments : List (List Char)) : Option Nat :=
  firstIdx (fun seg => testRe re (listToLower seg)) segments

/-- The segment-locating inner loop of the partial-word pass (lines
91-97): accumulate segment lengths until the running total reaches the
given index; when the total never reaches it the loop falls through and
no segment is produced. -/
def findSegment (segments : List (List Char)) (idx : Int) : Option Nat :=
  go 0 0 segments
where
  go : Int → Nat → List (List Char) → Option Nat
    | _, _, [] => none
    | cc, j, s :: rest =>
      if idx ≤ cc + s.length then some j else go (cc + s.length) (j + 1) rest

/-- The qualification test of lines 88-89: both the stripped word and the
stripped brand exceed three characters and one contains the other. -/
def qualifiesWord (brandStripped w : List Char) : Bool :=
  let word := stripNonAlnum w
  word.length > 3 && brandStripped.length > 3 &&
    (listContainsSub word brandStripped || listContainsSub brandStripped word)

/-- The partial-word pass (lines 82-100): walk the whitespace-split words
of the lower-cased text; for the stripped words that, like the stripped
brand, exceed three characters and contain one another, locate the owning
segment via findSegment at the index of the first occurrence of the
stripped word in the lower-cased text; when findSegment falls through,
continue with the next word. -/
def pass3 (segments : List (List Char)) (brandStripped textLower : List Char) :
    List (List Char) → Option Nat
  | [] => none
  | w :: rest =>
      if qualifiesWord brandStripped w then
        match findSegment segments (jsIndexOf textLower (stripNonAlnum w)) with
        | some j => some j
        | none => pass3 segments brandStripped textLower rest
      else pass3 segments brandStripped textLower rest

/-- Embedding of detectBrandMention (lines 50-103).  The empty-input guard
models the JavaScript falsiness test on the two string arguments; RegExp
construction in the loose-punctuation pass can throw, which the Except
models; the three passes are tried in order and the first hit wins. -/
def detectBrandMention (text brandName : String) : Except String DetectionResult :=
  if text.data = [] ∨ brandName.data = [] then .ok ⟨false, none⟩
  else
    let textLower := listToLower text.data
    let brandLower := jsTrim (listToLower brandName.data)
    let segments := splitChars isDotNl text.data
    match pass1 segments brandLower with
    | some i => .ok ⟨true, some (i + 1)⟩
    | none =>
      let brandWords := splitRuns jsIsWs brandLower
      let pat := listJoinSep sepPatChars brandWords
      match parseRegex pat with
      | .error e => .error e
      | .ok re =>
        match pass2 re segments with
        | some i => .ok ⟨true, some (i + 1)⟩
        | none =>
          match pass3 segments (stripNonAlnum brandLower) textLower
              (splitRuns jsIsWs textLower) with
          | some j => .ok ⟨true, some (j + 1)⟩
          | none => .ok ⟨false, none⟩

/-!
### Canned fallback provider and generation orchestrator
(server.js lines 108-117 and 149-227)
-/

/-- The fixed canned response text (lines 108-117). -/
def getCannedResponse : String :=
  "Here are some popular options in the market:\n" ++
  "1. Leading industry solutions\n" ++
  "2. Well-established platforms\n" ++
  "3. Innovative tools and services\n" ++
  "4. Cost-effective alternatives\n" ++
  "5. Enterprise-grade solutions\n\n" ++
  "These represent various options available for your needs."

/-- The configured candidate model list MODEL_OPTIONS (lines 36-40). -/
def MODEL_OPTIONS : List String :=
  ["gemini-2.5-flash", "gemini-2.5-pro", "gemini-2.0-flash-exp"]

/-- The default model name MODEL_NAME = MODEL_OPTIONS[0] (line 43). -/
def MODEL_NAME : String :=
  "gemini-2.5-flash"

/-- A part of a structured candidate content (part.text may be absent). -/
structure PartObj where
  text : Option String
deriving DecidableEq, Repr

/-- A response candidate: content.parts when both are present. -/
structure CandidateObj where
  parts : Option (List PartObj)
deriving DecidableEq, Repr

/-- The observable shape of one model response: the behaviour of the
response.text accessor (absent, throwing, or returning a string) and the
candidates array. -/
structure GenResponse where
  textFn : Option (Except Unit String)
  candidates : List CandidateObj
deriving Repr

/-- Behaviour of one external generation call: the whole invocation throws,
or it yields a response object. -/
inductive CallResult where
  | fail
  | respond (r : GenResponse)
deriving Repr

/-- JavaScript falsiness of the geminiResponse variable: undefined or the
empty string. -/
def jsFalsyStr : Option String → Bool
  | none => true
  | some s => s.data = []

/-- The text-extraction steps of one loop iteration (lines 176-193),
operating on the current value of the geminiResponse variable (which is
declared outside the loop and therefore carries over from earlier failed
candidates): first the text accessor when it is a function and does not
throw, then, only when the current value is still falsy, the joined part
texts of the first candidate. -/
def extractText (r : GenResponse) (prev : Option String) : Option String :=
  let g1 :=
    match r.textFn with
    | none => prev
    | some (.ok s) => some s
    | some (.error _) => prev
  if jsFalsyStr g1 then
    match r.candidates with
    | [] => g1
    | c :: _ =>
      match c.parts with
      | none => g1
      | some parts =>
        if parts.length > 0 then
          some (String.join (parts.map (fun p => p.text.getD "")))
        else g1
  else g1

/-- The empty-response check of lines 201-203: the candidate is a failure
when the extracted value is falsy or trims to nothing. -/
def failedExtract (g : Option String) : Bool :=
  match g with
  | none => true
  | some s => jsTrim s.data = []

/-- The candidate loop (lines 158-216): try each model in order, carrying
the geminiResponse variable across iterations; a throwing call or a failed
extraction moves to the next candidate; the first candidate whose
extraction passes the check succeeds with its model name and text. -/
def tryModels (env : String → CallResult) (prev : Option String) :
    List String → Option (String × String)
  | [] => none
  | m :: rest =>
    match env m with
    | .fail => tryModels env prev rest
    | .respond r =>
      let g := extractText r prev
      if failedExtract g then tryModels env g rest
      else some (m, g.getD "")

/-- Outcome of the orchestration block (lines 149-227): the final values
of the geminiResponse, usedCannedResponse and modelUsed variables.  The
modelUsed variable holds a JavaScript string throughout (initialised to
MODEL_NAME, overwritten with the succeeding model's name); it is modelled
as an Option to express the spec's string-or-null type, and the code never
assigns null to it. -/
structure OrchResult where
  geminiResponse : String
  usedCannedResponse : Bool
  modelUsed : Option String
deriving DecidableEq, Repr

/-- The orchestration block (lines 149-227): run the candidate loop; on
success take the model's text, otherwise the rethrown failure lands in the
catch block of line 222, which substitutes the canned response and sets
usedCannedResponse, leaving modelUsed at its initial value MODEL_NAME. -/
def runOrchestration (env : String → CallResult) (options : List String) :
    OrchResult :=
  match tryModels env none options with
  | some (m, t) => ⟨t, false, some m⟩
  | none => ⟨getCannedResponse, true, some MODEL_NAME⟩

/-!
### The error branch of the request handler (server.js lines 247-266)
-/

/-- The data object built by the catch branch of the request handler. -/
structure ErrorData where
  mentioned : String
  position : Option Nat
  geminiResponse : String
  usedCannedResponse : Bool
  errorOccurred : Bool
deriving DecidableEq, Repr

/-- The payload built by the catch branch. -/
structure ErrorPayload where
  success : Bool
  data : ErrorData
deriving DecidableEq, Repr

/-- The catch branch of the request handler (lines 247-266): run the
detector on the canned response and answer success with the canned text
and the errorOccurred flag.  The branch itself calls detectBrandMention,
so a detector exception escapes it (modelled by the Except). -/
def handlerCatchBranch (brandName : String) : Except String ErrorPayload :=
  match detectBrandMention getCannedResponse brandName with
  | .error e => .error e
  | .ok d =>
    .ok ⟨true,
      ⟨if d.mentioned then "Yes" else "No",
       if d.mentioned then d.position else none,
       getCannedResponse, true, true⟩⟩

/-!
### Specification-side notions used to state the claims
-/

/-- A word-separator character of the loose-punctuation pattern: the class
of whitespace, hyphen and underscore. -/
def sepChar (c : Char) : Bool :=
  jsIsWs c || c = '-' || c = '_'

/-- A word of lower-case ASCII letters and digits. -/
def allAlnum (w : List Char) : Bool :=
  w.all isLowerAlnum

/-- Do the given words occur at the very start of the input, in order,
separated by zero-or-more separator characters?  For words of
alphanumeric characters the greedy separator skip is exact, because a
separator can never begin the next word. -/
def wordsMatchAt : List (List Char) → List Char → Bool
  | [], _ => true
  | [w], s => w.isPrefixOf s
  | w :: ws, s => w.isPrefixOf s && wordsMatchAt ws ((s.drop w.length).dropWhile sepChar)

/-- Do the given words occur somewhere in the input, in order, separated by
zero-or-more separator characters?  This is the specification-side reading
of the loose-punctuation pass. -/
def looseOccurs (ws : List (List Char)) : List Char → Bool
  | [] => wordsMatchAt ws []
  | c :: rest => wordsMatchAt ws (c :: rest) || looseOccurs ws rest

/-- The character class of the loose-punctuation pattern, as parsed from
its bracket expression: whitespace, hyphen or underscore. -/
def sepCls : JSRegex :=
  .cls false [.wsClass, .ch '-', .ch '_']

/-- The literal atoms of one brand word. -/
def wordAtoms (w : List Char) : List JSRegex :=
  w.map JSRegex.lit

/-- The atom list of the loose-punctuation pattern: the words' literals
with a starred separator class between consecutive words. -/
def patternAtoms : List (List Char) → List JSRegex
  | [] => []
  | [w] => wordAtoms w
  | w :: ws => wordAtoms w ++ (JSRegex.star sepCls :: patternAtoms ws)

/-- Right-nested concatenation of an atom list. -/
def buildCat (l : List JSRegex) : JSRegex :=
  l.foldr .cat .eps

/-- The tokens of one brand word. -/
def wordToks (w : List Char) : List Tok :=
  w.map (fun c => .rawch c)

/-- The token list of the loose-punctuation pattern. -/
def patternToks : List (List Char) → List Tok
  | [] => []
  | [w] => wordToks w
  | w :: ws => wordToks w ++ (.atom sepCls :: .tstar :: patternToks ws)

/-- The tagged sequence atoms the token parser accumulates for the
loose-punctuation pattern. -/
def taggedAtoms : List (List Char) → List (JSRegex × QTag)
  | [] => []
  | [w] => w.map (fun c => (JSRegex.lit c, QTag.plain))
  | w :: ws => w.map (fun c => (JSRegex.lit c, QTag.plain)) ++
      ((JSRegex.star sepCls, QTag.greedy) :: taggedAtoms ws)

/-- A decomposition of a character list into the given words, in order,
joined by runs of separator characters. -/
def LooseDecomp : List (List Char) → List Char → Prop
  | [], s => s = []
  | [w], s => s = w
  | w :: ws, s => ∃ g s', (∀ c ∈ g, sepChar c = true) ∧
      s = w ++ g ++ s' ∧ LooseDecomp ws s'

/-- Brand characters over which the embedded regex model is exact: the
model simplifies anchors and word boundaries to epsilon, rejects lookahead
groups and treats every group as non-capturing (so escapes can never be
backreferences), and reads class escapes as single characters, so a brand
name containing a backslash, an opening bracket, an opening parenthesis or
an anchor character is outside the modelled subset.  Quantifiers, braced
quantifiers, alternation, the dot and all literal characters are modelled
exactly. -/
def safePatChar (c : Char) : Bool :=
  !(c = '\\' || c = '[' || c = '(' || c = '^' || c = '$')

/-- One orchestration candidate that never succeeds: the call throws, or
its extraction fails the empty-response check whatever value the
geminiResponse variable carries in. -/
def candidateFailsAlways (env : String → CallResult) (m : String) : Prop :=
  env m = .fail ∨
    ∃ r, env m = .respond r ∧ ∀ prev, failedExtract (extractText r prev) = true

/-- One orchestration candidate that yields the non-empty text t whatever
value the geminiResponse variable carries in. -/
def candidateProduces (env : String → CallResult) (m t : String) : Prop :=
  ∃ r, env m = .respond r ∧ (∀ prev, extractText r prev = some t) ∧
    failedExtract (some t) = false

/-!
### General lemmas
-/

/-- firstIdx misses when no element satisfies the test. -/
theorem firstIdx_eq_none (p : List Char → Bool) :
    ∀ l : List (List Char), (∀ s ∈ l, p s = false) → firstIdx p l = none := by
  intro l
  induction l with
  | nil => intro _; rfl
  | cons s rest ih =>
    intro h
    have hs := h s (by simp)
    simp only [firstIdx, hs]
    rw [ih (fun x hx => h x (by simp [hx]))]
    simp

/-- firstIdx finds the first index whose element satisfies the test. -/
theorem firstIdx_eq_some (p : List Char → Bool) :
    ∀ (l : List (List Char)) (i : Nat) (hi : i < l.length),
      p (l.get ⟨i, hi⟩) = true →
      (∀ j (hj : j < l.length), j < i → p (l.get ⟨j, hj⟩) = false) →
      firstIdx p l = some i := by
  intro l
  induction l with
  | nil => intro i hi; simp at hi
  | cons s rest ih =>
    intro i hi hp hmin
    cases i with
    | zero =>
      simp only [List.get] at hp
      simp [firstIdx, hp]
    | succ i' =>
      have hs : p s = false := hmin 0 (by simp) (Nat.succ_pos i')
      simp only [firstIdx, hs]
      rw [ih i' (by simpa using hi) (by simpa using hp)
        (fun j hj hji => by
          have := hmin (j + 1) (by simpa using hj) (by omega)
          simpa using this)]
      simp

/-- A non-empty string has a non-empty character list. -/
theorem data_ne_nil {s : String} (h : s ≠ "") : s.data ≠ [] := by
  intro hd
  apply h
  cases s with
  | mk d =>
    have : d = [] := hd
    rw [this]

/-- Unfolding of the detector when the exact-substring pass hits. -/
theorem detect_pass1_some {text brandName : String} {i : Nat}
    (ht : text.data ≠ []) (hb : brandName.data ≠ [])
    (h1 : pass1 (splitChars isDotNl text.data)
      (jsTrim (listToLower brandName.data)) = some i) :
    detectBrandMention text brandName = .ok ⟨true, some (i + 1)⟩ := by
  unfold detectBrandMention
  rw [if_neg (by simp [ht, hb])]
  simp only [h1]

/-- Unfolding of the detector when the exact pass misses and the pattern
fails to parse. -/
theorem detect_parse_error {text brandName : String} {e : String}
    (ht : text.data ≠ []) (hb : brandName.data ≠ [])
    (h1 : pass1 (splitChars isDotNl text.data)
      (jsTrim (listToLower brandName.data)) = none)
    (hre : parseRegex (listJoinSep sepPatChars
      (splitRuns jsIsWs (jsTrim (listToLower brandName.data)))) = .error e) :
    detectBrandMention text brandName = .error e := by
  unfold detectBrandMention
  rw [if_neg (by simp [ht, hb])]
  simp only [h1, hre]

/-- Unfolding of the detector when the exact pass misses and the loose
pass hits. -/
theorem detect_pass2_some {text brandName : String} {re : JSRegex} {i : Nat}
    (ht : text.data ≠ []) (hb : brandName.data ≠ [])
    (h1 : pass1 (splitChars isDotNl text.data)
      (jsTrim (listToLower brandName.data)) = none)
    (hre : parseRegex (listJoinSep sepPatChars
      (splitRuns jsIsWs (jsTrim (listToLower brandName.data)))) = .ok re)
    (h2 : pass2 re (splitChars isDotNl text.data) = some i) :
    detectBrandMention text brandName = .ok ⟨true, some (i + 1)⟩ := by
  unfold detectBrandMention
  rw [if_neg (by simp [ht, hb])]
  simp only [h1, hre, h2]

/-- Unfolding of the detector when the first two passes miss and the
partial-word pass produces a segment. -/
theorem detect_pass3_some {text brandName : String} {re : JSRegex} {j : Nat}
    (ht : text.data ≠ []) (hb : brandName.data ≠ [])
    (h1 : pass1 (splitChars isDotNl text.data)
      (jsTrim (listToLower brandName.data)) = none)
    (hre : parseRegex (listJoinSep sepPatChars
      (splitRuns jsIsWs (jsTrim (listToLower brandName.data)))) = .ok re)
    (h2 : pass2 re (splitChars isDotNl text.data) = none)
    (h3 : pass3 (splitChars isDotNl text.data)
      (stripNonAlnum (jsTrim (listToLower brandName.data)))
      (listToLower text.data) (splitRuns jsIsWs (listToLower text.data)) = some j) :
    detectBrandMention text brandName = .ok ⟨true, some (j + 1)⟩ := by
  unfold detectBrandMention
  rw [if_neg (by simp [ht, hb])]
  simp only [h1, hre, h2, h3]

/-- Unfolding of the detector when all three passes miss. -/
theorem detect_no_match {text brandName : String} {re : JSRegex}
    (ht : text.data ≠ []) (hb : brandName.data ≠ [])
    (h1 : pass1 (splitChars isDotNl text.data)
      (jsTrim (listToLower brandName.data)) = none)
    (hre : parseRegex (listJoinSep sepPatChars
      (splitRuns jsIsWs (jsTrim (listToLower brandName.data)))) = .ok re)
    (h2 : pass2 re (splitChars isDotNl text.data) = none)
    (h3 : pass3 (splitChars isDotNl text.data)
      (stripNonAlnum (jsTrim (listToLower brandName.data)))
      (listToLower text.data) (splitRuns jsIsWs (listToLower text.data)) = none) :
    detectBrandMention text brandName = .ok ⟨false, none⟩ := by
  unfold detectBrandMention
  rw [if_neg (by simp [ht, hb])]
  simp only [h1, hre, h2, h3]

/-- Unfolding of the detector at an empty text or brand name. -/
theorem detect_empty {text brandName : String}
    (h : text.data = [] ∨ brandName.data = []) :
    detectBrandMention text brandName = .ok ⟨false, none⟩ := by
  unfold detectBrandMention
  rw [if_pos h]

/-- The partial-word pass is decided by its first qualifying word: when
that word's findSegment lookup produces a segment, the pass returns it. -/
theorem pass3_first_qualifying
    (segments : List (List Char)) (brandStripped textLower : List Char) :
    ∀ (ws : List (List Char)) (i : Nat) (hi : i < ws.length) (j : Nat),
      qualifiesWord brandStripped (ws.get ⟨i, hi⟩) = true →
      (∀ k (hk : k < ws.length), k < i →
        qualifiesWord brandStripped (ws.get ⟨k, hk⟩) = false) →
      findSegment segments
        (jsIndexOf textLower (stripNonAlnum (ws.get ⟨i, hi⟩))) = some j →
      pass3 segments brandStripped textLower ws = some j := by
  intro ws
  induction ws with
  | nil => intro i hi; simp at hi
  | cons w rest ih =>
    intro i hi j hq hmin hseg
    cases i with
    | zero =>
      simp only [List.get] at hq hseg
      simp only [pass3, hq, if_pos, hseg]
    | succ i' =>
      have hw : qualifiesWord brandStripped w = false :=
        hmin 0 (by simp) (Nat.succ_pos i')
      simp only [pass3, hw]
      rw [if_neg (by simp)]
      exact ih i' (by simpa using hi) j (by simpa using hq)
        (fun k hk hki => by
          have := hmin (k + 1) (by simpa using hk) (by omega)
          simpa using this)
        (by simpa using hseg)

/-- The candidate loop misses every candidate that always fails, whatever
value the geminiResponse variable carries in. -/
theorem tryModels_all_fail (env : String → CallResult) :
    ∀ (opts : List String), (∀ m ∈ opts, candidateFailsAlways env m) →
      ∀ prev, tryModels env prev opts = none := by
  intro opts
  induction opts with
  | nil => intro _ _; rfl
  | cons m rest ih =>
    intro h prev
    have hm := h m (by simp)
    have hrest := fun x hx => h x (List.mem_cons_of_mem _ hx)
    cases hm with
    | inl hfail => simp only [tryModels, hfail]; exact ih hrest prev
    | inr hresp =>
      obtain ⟨r, hr, hext⟩ := hresp
      simp only [tryModels, hr]
      rw [if_pos (hext prev)]
      exact ih hrest _

/-- The candidate loop succeeds at the first candidate that produces text,
with that candidate's name and text, whatever came before. -/
theorem tryModels_first_success (env : String → CallResult) (m t : String) :
    ∀ (pre rest : List String), (∀ x ∈ pre, candidateFailsAlways env x) →
      candidateProduces env m t →
      ∀ prev, tryModels env prev (pre ++ m :: rest) = some (m, t) := by
  intro pre
  induction pre with
  | nil =>
    intro rest _ hm prev
    obtain ⟨r, hr, hext, hok⟩ := hm
    simp only [List.nil_append, tryModels, hr, hext prev]
    rw [if_neg (by simp [hok])]
    simp [hext prev]
  | cons x xs ih =>
    intro rest hpre hm prev
    have hx := hpre x (by simp)
    have hxs := fun y hy => hpre y (List.mem_cons_of_mem _ hy)
    cases hx with
    | inl hfail =>
      simp only [List.cons_append, tryModels, hfail]
      exact ih rest hxs hm prev
    | inr hresp =>
      obtain ⟨r, hr, hext⟩ := hresp
      simp only [List.cons_append, tryModels, hr]
      rw [if_pos (hext prev)]
      exact ih rest hxs hm _

/-- Lower-casing fixes every JavaScript whitespace character, since none of
them is an upper-case ASCII letter. -/
theorem toLower_ws {c : Char} (h : jsIsWs c = true) : Char.toLower c = c := by
  simp only [jsIsWs, Bool.or_eq_true, Bool.and_eq_true, decide_eq_true_eq] at h
  have hcond : ¬(c.toNat ≥ 65 ∧ c.toNat ≤ 90) := by
    rcases h with ((((((((((((((h|h)|h)|h)|h)|h)|h)|h)|⟨h1,h2⟩)|h)|h)|h)|h)|h)|h) <;>
      first
        | (subst h; decide)
        | (rw [Char.le_def] at h1
           have g1 : (Char.ofNat 8192).val.toNat ≤ c.val.toNat := h1
           have g2 : c.toNat = c.val.toNat := rfl
           have g3 : (Char.ofNat 8192).val.toNat = 8192 := by decide
           omega)
  unfold Char.toLower
  simp only [hcond, if_false]

/-- Dropping whitespace from an all-whitespace list leaves nothing. -/
theorem dropWhile_ws_nil : ∀ s : List Char, (∀ c ∈ s, jsIsWs c = true) →
    s.dropWhile jsIsWs = [] := by
  intro s
  induction s with
  | nil => intro _; rfl
  | cons c rest ih =>
    intro h
    simp only [List.dropWhile, h c (by simp)]
    exact ih (fun x hx => h x (List.mem_cons_of_mem _ hx))

/-- Trimming an all-whitespace list leaves the empty list. -/
theorem jsTrim_ws_nil (s : List Char) (h : ∀ c ∈ s, jsIsWs c = true) :
    jsTrim s = [] := by
  unfold jsTrim
  rw [dropWhile_ws_nil s h]
  rfl

/-- Every string includes the empty string. -/
theorem listContainsSub_nil (s : List Char) : listContainsSub s [] = true := by
  cases s <;> simp [listContainsSub, List.isPrefixOf]

/-- Splitting never produces an empty segment list. -/
theorem splitChars_ne_nil (p : Char → Bool) (cs : List Char) :
    splitChars p cs ≠ [] := by
  unfold splitChars
  generalize [] = acc
  induction cs generalizing acc with
  | nil => simp [splitChars.go]
  | cons c rest ih =>
    simp only [splitChars.go]
    by_cases h : p c
    · simp [h]
    · rw [if_neg h]
      exact ih (c :: acc)

/-- Every successful detector result is either a miss or a hit at a
positive, one-based position. -/
theorem detect_ok_shape (text brandName : String) (r : DetectionResult)
    (h : detectBrandMention text brandName = .ok r) :
    r = ⟨false, none⟩ ∨ ∃ i : Nat, r = ⟨true, some (i + 1)⟩ := by
  unfold detectBrandMention at h
  by_cases hg : text.data = [] ∨ brandName.data = []
  · rw [if_pos hg] at h
    injection h with h
    exact Or.inl h.symm
  · rw [if_neg hg] at h
    cases hp1 : pass1 (splitChars isDotNl text.data)
        (jsTrim (listToLower brandName.data)) with
    | some i =>
      simp only [hp1] at h
      injection h with h
      exact Or.inr ⟨i, h.symm⟩
    | none =>
      simp only [hp1] at h
      cases hre : parseRegex (listJoinSep sepPatChars
          (splitRuns jsIsWs (jsTrim (listToLower brandName.data)))) with
      | error e =>
        simp only [hre] at h
        exact absurd h (by simp)
      | ok re =>
        simp only [hre] at h
        cases hp2 : pass2 re (splitChars isDotNl text.data) with
        | some i =>
          simp only [hp2] at h
          injection h with h
          exact Or.inr ⟨i, h.symm⟩
        | none =>
          simp only [hp2] at h
          cases hp3 : pass3 (splitChars isDotNl text.data)
              (stripNonAlnum (jsTrim (listToLower brandName.data)))
              (listToLower text.data)
              (splitRuns jsIsWs (listToLower text.data)) with
          | some j =>
            simp only [hp3] at h
            injection h with h
            exact Or.inr ⟨j, h.symm⟩
          | none =>
            simp only [hp3] at h
            injection h with h
            exact Or.inl h.symm

/-!
### Correctness of the derivative matcher
-/

/-- Nothing matches the failure regex. -/
theorem rmatch_fail_inv {s : List Char} (h : RMatch .fail s) : False := by
  cases h

/-- Inversion for the empty regex. -/
theorem rmatch_eps_inv {s : List Char} (h : RMatch .eps s) : s = [] := by
  cases h; rfl

/-- Inversion for a literal. -/
theorem rmatch_lit_inv {c : Char} {s : List Char} (h : RMatch (.lit c) s) :
    s = [c] := by
  cases h; rfl

/-- Inversion for the dot. -/
theorem rmatch_anychar_inv {s : List Char} (h : RMatch .anychar s) :
    ∃ c, s = [c] ∧ jsIsLineTerm c = false := by
  cases h with
  | anychar c hc => exact ⟨c, rfl, hc⟩

/-- Inversion for a character class. -/
theorem rmatch_cls_inv {neg : Bool} {items : List ClassAtom} {s : List Char}
    (h : RMatch (.cls neg items) s) :
    ∃ c, s = [c] ∧ classMatch neg items c = true := by
  cases h with
  | cls _ _ c hc => exact ⟨c, rfl, hc⟩

/-- Inversion for concatenation. -/
theorem rmatch_cat_inv {r1 r2 : JSRegex} {s : List Char}
    (h : RMatch (.cat r1 r2) s) :
    ∃ s1 s2, s = s1 ++ s2 ∧ RMatch r1 s1 ∧ RMatch r2 s2 := by
  cases h with
  | cat h1 h2 => exact ⟨_, _, rfl, h1, h2⟩

/-- Inversion for alternation. -/
theorem rmatch_alt_inv {r1 r2 : JSRegex} {s : List Char}
    (h : RMatch (.alt r1 r2) s) : RMatch r1 s ∨ RMatch r2 s := by
  cases h with
  | altL h => exact Or.inl h
  | altR h => exact Or.inr h

/-- Inversion for the star: a non-empty match splits off a non-empty first
iteration. -/
theorem rmatch_star_inv {r : JSRegex} {s : List Char}
    (h : RMatch (.star r) s) :
    s = [] ∨ ∃ s1 s2, s = s1 ++ s2 ∧ s1 ≠ [] ∧ RMatch r s1 ∧
      RMatch (.star r) s2 := by
  generalize hre : JSRegex.star r = re at h
  induction h with
  | eps => cases hre
  | lit c => cases hre
  | anychar c hc => cases hre
  | cls neg items c hc => cases hre
  | cat h1 h2 ih1 ih2 => cases hre
  | altL h ih => cases hre
  | altR h ih => cases hre
  | starNil r0 =>
    exact Or.inl rfl
  | starCat h1 h2 ih1 ih2 =>
    injection hre with hr0
    subst hr0
    rename_i s1 s2
    by_cases h0 : s1 = []
    · subst h0
      simpa using ih2 rfl
    · exact Or.inr ⟨s1, s2, rfl, h0, h1, h2⟩

/-- nullable decides whether a regex matches the empty input. -/
theorem nullable_iff : ∀ r : JSRegex, nullable r = true ↔ RMatch r [] := by
  intro r
  induction r with
  | fail =>
    exact iff_of_false (by simp [nullable]) rmatch_fail_inv
  | eps =>
    exact iff_of_true (by simp [nullable]) RMatch.eps
  | lit c =>
    exact iff_of_false (by simp [nullable])
      (fun h => by cases rmatch_lit_inv h)
  | anychar =>
    refine iff_of_false (by simp [nullable]) (fun h => ?_)
    obtain ⟨c, hc, _⟩ := rmatch_anychar_inv h
    cases hc
  | cls neg items =>
    refine iff_of_false (by simp [nullable]) (fun h => ?_)
    obtain ⟨c, hc, _⟩ := rmatch_cls_inv h
    cases hc
  | cat r1 r2 ih1 ih2 =>
    simp only [nullable, Bool.and_eq_true, ih1, ih2]
    constructor
    · rintro ⟨h1, h2⟩
      exact RMatch.cat h1 h2
    · intro h
      obtain ⟨s1, s2, heq, h1, h2⟩ := rmatch_cat_inv h
      obtain ⟨e1, e2⟩ := List.append_eq_nil.mp heq.symm
      exact ⟨e1 ▸ h1, e2 ▸ h2⟩
  | alt r1 r2 ih1 ih2 =>
    simp only [nullable, Bool.or_eq_true, ih1, ih2]
    constructor
    · rintro (h | h)
      · exact RMatch.altL h
      · exact RMatch.altR h
    · exact rmatch_alt_inv
  | star r ih =>
    exact iff_of_true (by simp [nullable]) (RMatch.starNil r)

/-- The derivative characterises matching after one character. -/
theorem deriv_iff : ∀ (r : JSRegex) (c : Char) (s : List Char),
    RMatch (deriv c r) s ↔ RMatch r (c :: s) := by
  intro r
  induction r with
  | fail =>
    intro c s
    simp only [deriv]
    exact ⟨fun h => absurd h rmatch_fail_inv, fun h => absurd h rmatch_fail_inv⟩
  | eps =>
    intro c s
    simp only [deriv]
    constructor
    · intro h; exact absurd h rmatch_fail_inv
    · intro h; cases rmatch_eps_inv h
  | lit d =>
    intro c s
    simp only [deriv]
    by_cases hdc : d = c
    · subst hdc
      rw [if_pos rfl]
      constructor
      · intro h; rw [rmatch_eps_inv h]; exact RMatch.lit d
      · intro h
        have := rmatch_lit_inv h
        injection this with _ h2
        rw [h2]
        exact RMatch.eps
    · rw [if_neg hdc]
      constructor
      · intro h; exact absurd h rmatch_fail_inv
      · intro h
        have := rmatch_lit_inv h
        injection this with h1 _
        exact absurd h1.symm hdc
  | anychar =>
    intro c s
    simp only [deriv]
    by_cases hlt : jsIsLineTerm c = true
    · rw [if_pos hlt]
      constructor
      · intro h; exact absurd h rmatch_fail_inv
      · intro h
        obtain ⟨c2, hc2, hterm⟩ := rmatch_anychar_inv h
        injection hc2 with h1 _
        rw [← h1] at hterm
        rw [hlt] at hterm
        cases hterm
    · rw [if_neg hlt]
      constructor
      · intro h
        rw [rmatch_eps_inv h]
        exact RMatch.anychar c (by revert hlt; cases jsIsLineTerm c <;> simp)
      · intro h
        obtain ⟨c2, hc2, _⟩ := rmatch_anychar_inv h
        injection hc2 with _ h2
        rw [h2]
        exact RMatch.eps
  | cls neg items =>
    intro c s
    simp only [deriv]
    by_cases hm : classMatch neg items c = true
    · rw [if_pos hm]
      constructor
      · intro h
        rw [rmatch_eps_inv h]
        exact RMatch.cls neg items c hm
      · intro h
        obtain ⟨c2, hc2, _⟩ := rmatch_cls_inv h
        injection hc2 with _ h2
        rw [h2]
        exact RMatch.eps
    · rw [if_neg hm]
      constructor
      · intro h; exact absurd h rmatch_fail_inv
      · intro h
        obtain ⟨c2, hc2, hm2⟩ := rmatch_cls_inv h
        injection hc2 with h1 _
        rw [← h1] at hm2
        exact absurd hm2 hm
  | cat r1 r2 ih1 ih2 =>
    intro c s
    simp only [deriv]
    by_cases hn : nullable r1 = true
    · rw [if_pos hn]
      constructor
      · intro h
        rcases rmatch_alt_inv h with h | h
        · obtain ⟨s1, s2, heq, h1, h2⟩ := rmatch_cat_inv h
          subst heq
          have : RMatch r1 (c :: s1) := (ih1 c s1).mp h1
          exact RMatch.cat this h2
        · have hr2 : RMatch r2 (c :: s) := (ih2 c s).mp h
          have hr1 : RMatch r1 [] := (nullable_iff r1).mp hn
          exact RMatch.cat hr1 hr2
      · intro h
        obtain ⟨s1, s2, heq, h1, h2⟩ := rmatch_cat_inv h
        cases s1 with
        | nil =>
          simp only [List.nil_append] at heq
          subst heq
          exact RMatch.altR ((ih2 c s).mpr h2)
        | cons c1 s1' =>
          injection heq with hc1 hs
          subst hc1
          subst hs
          exact RMatch.altL (RMatch.cat ((ih1 c s1').mpr h1) h2)
    · rw [if_neg hn]
      constructor
      · intro h
        obtain ⟨s1, s2, heq, h1, h2⟩ := rmatch_cat_inv h
        subst heq
        exact RMatch.cat ((ih1 c s1).mp h1) h2
      · intro h
        obtain ⟨s1, s2, heq, h1, h2⟩ := rmatch_cat_inv h
        cases s1 with
        | nil =>
          exact absurd ((nullable_iff r1).mpr h1) hn
        | cons c1 s1' =>
          injection heq with hc1 hs
          subst hc1
          subst hs
          exact RMatch.cat ((ih1 c s1').mpr h1) h2
  | alt r1 r2 ih1 ih2 =>
    intro c s
    simp only [deriv]
    constructor
    · intro h
      rcases rmatch_alt_inv h with h | h
      · exact RMatch.altL ((ih1 c s).mp h)
      · exact RMatch.altR ((ih2 c s).mp h)
    · intro h
      rcases rmatch_alt_inv h with h | h
      · exact RMatch.altL ((ih1 c s).mpr h)
      · exact RMatch.altR ((ih2 c s).mpr h)
  | star r ih =>
    intro c s
    simp only [deriv]
    constructor
    · intro h
      obtain ⟨s1, s2, heq, h1, h2⟩ := rmatch_cat_inv h
      subst heq
      exact RMatch.starCat ((ih c s1).mp h1) h2
    · intro h
      rcases rmatch_star_inv h with heq | ⟨s1, s2, heq, hne, h1, h2⟩
      · cases heq
      · cases s1 with
        | nil => exact absurd rfl hne
        | cons c1 s1' =>
          injection heq with hc1 hs
          subst hc1
          subst hs
          exact RMatch.cat ((ih c s1').mpr h1) h2

/-- fullMatch decides the matching relation. -/
theorem fullMatch_iff : ∀ (s : List Char) (r : JSRegex),
    fullMatch r s = true ↔ RMatch r s := by
  intro s
  induction s with
  | nil => intro r; exact nullable_iff r
  | cons c cs ih =>
    intro r
    simp only [fullMatch]
    rw [ih (deriv c r)]
    exact deriv_iff r c cs

/-- matchesPre decides whether some prefix matches. -/
theorem matchesPre_iff : ∀ (s : List Char) (r : JSRegex),
    matchesPre r s = true ↔ ∃ s1 s2, s = s1 ++ s2 ∧ RMatch r s1 := by
  intro s
  induction s with
  | nil =>
    intro r
    simp only [matchesPre]
    rw [nullable_iff]
    constructor
    · intro h; exact ⟨[], [], rfl, h⟩
    · rintro ⟨s1, s2, heq, h1⟩
      obtain ⟨e1, e2⟩ := List.append_eq_nil.mp heq.symm
      exact e1 ▸ h1
  | cons c cs ih =>
    intro r
    simp only [matchesPre, Bool.or_eq_true]
    rw [nullable_iff, ih (deriv c r)]
    constructor
    · rintro (h | ⟨t1, t2, heq, h1⟩)
      · exact ⟨[], c :: cs, rfl, h⟩
      · subst heq
        exact ⟨c :: t1, t2, rfl, (deriv_iff r c t1).mp h1⟩
    · rintro ⟨s1, s2, heq, h1⟩
      cases s1 with
      | nil =>
        exact Or.inl (by simpa [← heq] using h1)
      | cons c1 t1 =>
        injection heq with hc1 hs
        subst hc1
        exact Or.inr ⟨t1, s2, hs, (deriv_iff r c t1).mpr h1⟩

/-- testRe decides whether some contiguous substring matches. -/
theorem testRe_iff : ∀ (s : List Char) (r : JSRegex),
    testRe r s = true ↔ ∃ pre mid post, s = pre ++ mid ++ post ∧ RMatch r mid := by
  intro s
  induction s with
  | nil =>
    intro r
    simp only [testRe]
    rw [nullable_iff]
    constructor
    · intro h; exact ⟨[], [], [], rfl, h⟩
    · rintro ⟨pre, mid, post, heq, h1⟩
      rcases List.append_eq_nil.mp heq.symm with ⟨h2, h3⟩
      rcases List.append_eq_nil.mp h2 with ⟨h4, h5⟩
      exact h5 ▸ h1
  | cons c cs ih =>
    intro r
    simp only [testRe, Bool.or_eq_true]
    rw [matchesPre_iff (c :: cs) r, ih r]
    constructor
    · rintro (⟨s1, s2, heq, h1⟩ | ⟨pre, mid, post, heq, h1⟩)
      · exact ⟨[], s1, s2, by simpa using heq, h1⟩
      · subst heq
        exact ⟨c :: pre, mid, post, rfl, h1⟩
    · rintro ⟨pre, mid, post, heq, h1⟩
      cases pre with
      | nil =>
        simp only [List.nil_append] at heq
        exact Or.inl ⟨mid, post, heq, h1⟩
      | cons c1 pre' =>
        injection heq with hc1 hs
        exact Or.inr ⟨pre', mid, post, hs, h1⟩

/-!
### Semantics of the loose-punctuation pattern
-/

/-- The separator class matches exactly the separator characters. -/
theorem sepCls_match (c : Char) :
    classMatch false [.wsClass, .ch '-', .ch '_'] c = sepChar c := by
  simp only [classMatch, List.any, classAtomMatch, sepChar, if_false,
    Bool.or_false]
  cases jsIsWs c <;> cases hd : decide (c = '-') <;> cases hu : decide (c = '_') <;>
    simp_all

/-- A starred separator class matches exactly the all-separator lists. -/
theorem rmatch_sepStar (g : List Char) :
    RMatch (.star sepCls) g ↔ ∀ c ∈ g, sepChar c = true := by
  constructor
  · intro h
    generalize hre : JSRegex.star sepCls = re at h
    induction h with
    | eps => cases hre
    | lit c => cases hre
    | anychar c hc => cases hre
    | cls neg items c hc => cases hre
    | cat h1 h2 ih1 ih2 => cases hre
    | altL h ih => cases hre
    | altR h ih => cases hre
    | starNil r0 => intro c hc; cases hc
    | starCat h1 h2 ih1 ih2 =>
      injection hre with hr0
      subst hr0
      intro c hc
      rcases List.mem_append.mp hc with hc | hc
      · obtain ⟨c2, hc2, hm⟩ := rmatch_cls_inv h1
        subst hc2
        rcases List.mem_singleton.mp hc with rfl
        rwa [sepCls_match] at hm
      · exact ih2 rfl c hc
  · intro h
    induction g with
    | nil => exact RMatch.starNil _
    | cons c rest ih =>
      have hc : sepChar c = true := h c (by simp)
      have hrest := ih (fun x hx => h x (List.mem_cons_of_mem _ hx))
      have hone : RMatch sepCls [c] :=
        RMatch.cls false _ c (by rw [sepCls_match]; exact hc)
      exact RMatch.starCat hone hrest

/-- Concatenating a word's literals in front of an atom list peels the word
off the front of the match. -/
theorem rmatch_wordCat : ∀ (w : List Char) (atoms : List JSRegex) (s : List Char),
    RMatch (buildCat (wordAtoms w ++ atoms)) s ↔
      ∃ s', s = w ++ s' ∧ RMatch (buildCat atoms) s' := by
  intro w
  induction w with
  | nil =>
    intro atoms s
    simp [wordAtoms]
  | cons c w' ih =>
    intro atoms s
    have : buildCat (wordAtoms (c :: w') ++ atoms) =
        .cat (.lit c) (buildCat (wordAtoms w' ++ atoms)) := by
      simp [wordAtoms, buildCat]
    rw [this]
    constructor
    · intro h
      obtain ⟨s1, s2, heq, h1, h2⟩ := rmatch_cat_inv h
      rw [rmatch_lit_inv h1] at heq
      obtain ⟨s', hs', h3⟩ := (ih atoms s2).mp h2
      subst hs'
      exact ⟨s', by simpa using heq, h3⟩
    · rintro ⟨s', hs', h3⟩
      subst hs'
      have h2 : RMatch (buildCat (wordAtoms w' ++ atoms)) (w' ++ s') :=
        (ih atoms (w' ++ s')).mpr ⟨s', rfl, h3⟩
      have h4 : RMatch (.cat (.lit c) (buildCat (wordAtoms w' ++ atoms)))
          ([c] ++ (w' ++ s')) := RMatch.cat (RMatch.lit c) h2
      simpa using h4

/-- The loose-punctuation pattern matches exactly the loose decompositions
into the brand words. -/
theorem rmatch_pattern : ∀ (ws : List (List Char)) (s : List Char), ws ≠ [] →
    (RMatch (buildCat (patternAtoms ws)) s ↔ LooseDecomp ws s) := by
  intro ws
  induction ws with
  | nil => intro s h; exact absurd rfl h
  | cons w ws ih =>
    intro s _
    cases ws with
    | nil =>
      show RMatch (buildCat (patternAtoms [w])) s ↔ LooseDecomp [w] s
      have hp : patternAtoms [w] = wordAtoms w ++ [] := by
        simp [patternAtoms]
      rw [hp, rmatch_wordCat]
      show (∃ s', s = w ++ s' ∧ RMatch (buildCat []) s') ↔ s = w
      constructor
      · rintro ⟨s', hs', h⟩
        have : s' = [] := rmatch_eps_inv h
        subst this
        simpa using hs'
      · intro h
        exact ⟨[], by simpa using h, RMatch.eps⟩
    | cons w2 ws2 =>
      show RMatch (buildCat (patternAtoms (w :: w2 :: ws2))) s ↔
        LooseDecomp (w :: w2 :: ws2) s
      have hp : patternAtoms (w :: w2 :: ws2) =
          wordAtoms w ++ (JSRegex.star sepCls :: patternAtoms (w2 :: ws2)) := rfl
      rw [hp, rmatch_wordCat]
      have hcat : buildCat (JSRegex.star sepCls :: patternAtoms (w2 :: ws2)) =
          .cat (.star sepCls) (buildCat (patternAtoms (w2 :: ws2))) := rfl
      show (∃ s', s = w ++ s' ∧
          RMatch (buildCat (JSRegex.star sepCls :: patternAtoms (w2 :: ws2))) s') ↔
        ∃ g s', (∀ c ∈ g, sepChar c = true) ∧ s = w ++ g ++ s' ∧
          LooseDecomp (w2 :: ws2) s'
      constructor
      · rintro ⟨s', hs', h⟩
        rw [hcat] at h
        obtain ⟨g, s'', heq, hg, h2⟩ := rmatch_cat_inv h
        subst heq
        subst hs'
        refine ⟨g, s'', (rmatch_sepStar g).mp hg, by simp, ?_⟩
        exact (ih s'' (by simp)).mp h2
      · rintro ⟨g, s', hg, heq, hd⟩
        refine ⟨g ++ s', by simpa using heq, ?_⟩
        rw [hcat]
        exact RMatch.cat ((rmatch_sepStar g).mpr hg)
          ((ih s' (by simp)).mpr hd)

/-- An alphanumeric character is not a separator. -/
theorem sepChar_alnum {c : Char} (h : isLowerAlnum c = true) :
    sepChar c = false := by
  simp only [isLowerAlnum, Bool.or_eq_true, Bool.and_eq_true,
    decide_eq_true_eq] at h
  have hval : (97 ≤ c.toNat ∧ c.toNat ≤ 122) ∨ (48 ≤ c.toNat ∧ c.toNat ≤ 57) := by
    rcases h with ⟨h1, h2⟩ | ⟨h1, h2⟩
    · rw [Char.le_def] at h1 h2
      exact Or.inl ⟨h1, h2⟩
    · rw [Char.le_def] at h1 h2
      exact Or.inr ⟨h1, h2⟩
  by_contra hs
  have hs2 : sepChar c = true := by
    revert hs; cases sepChar c <;> simp
  simp only [sepChar, jsIsWs, Bool.or_eq_true, Bool.and_eq_true,
    decide_eq_true_eq] at hs2
  rcases hs2 with ((((((((((((((((h|h)|h)|h)|h)|h)|h)|h)|⟨h1,h2⟩)|h)|h)|h)|h)|h)|h)|h)|h) <;>
    first
      | (subst h
         revert hval
         decide)
      | (rw [Char.le_def] at h1
         have g1 : (Char.ofNat 8192).val.toNat ≤ c.val.toNat := h1
         have g2 : c.toNat = c.val.toNat := rfl
         have g3 : (Char.ofNat 8192).val.toNat = 8192 := by decide
         omega)

/-- Dropping separators from a separator run followed by a non-separator
consumes exactly the run. -/
theorem dropWhile_sep_run : ∀ (g : List Char), (∀ c ∈ g, sepChar c = true) →
    ∀ (c0 : Char) (X : List Char), sepChar c0 = false →
      (g ++ c0 :: X).dropWhile sepChar = c0 :: X := by
  intro g
  induction g with
  | nil =>
    intro _ c0 X h0
    simp [List.dropWhile, h0]
  | cons c g' ih =>
    intro hg c0 X h0
    have hc : sepChar c = true := hg c (by simp)
    simp only [List.cons_append, List.dropWhile, hc]
    exact ih (fun x hx => hg x (List.mem_cons_of_mem _ hx)) c0 X h0

/-- A loose decomposition into non-empty alphanumeric words starts with an
alphanumeric character. -/
theorem looseDecomp_head : ∀ (ws : List (List Char)) (s : List Char),
    LooseDecomp ws s → ws ≠ [] →
    (∀ w ∈ ws, w ≠ [] ∧ allAlnum w = true) →
    ∃ c rest, s = c :: rest ∧ isLowerAlnum c = true := by
  intro ws s hd hne halnum
  cases ws with
  | nil => exact absurd rfl hne
  | cons w ws2 =>
    have hw := halnum w (by simp)
    obtain ⟨hwne, hwal⟩ := hw
    cases w with
    | nil => exact absurd rfl hwne
    | cons c w' =>
      have hc : isLowerAlnum c = true := by
        simp only [allAlnum, List.all_cons, Bool.and_eq_true] at hwal
        exact hwal.1
      cases ws2 with
      | nil =>
        have : s = c :: w' := hd
        exact ⟨c, w', this, hc⟩
      | cons w2 ws3 =>
        obtain ⟨g, s', _, heq, _⟩ := hd
        exact ⟨c, w' ++ g ++ s', by simpa using heq, hc⟩

/-- For non-empty alphanumeric words the greedy word-by-word matcher
decides the existence of a loose decomposition of a prefix. -/
theorem wordsMatchAt_iff : ∀ (ws : List (List Char)),
    (∀ w ∈ ws, w ≠ [] ∧ allAlnum w = true) →
    ∀ s, (wordsMatchAt ws s = true ↔
      ∃ mid post, s = mid ++ post ∧ LooseDecomp ws mid) := by
  intro ws
  induction ws with
  | nil =>
    intro _ s
    constructor
    · intro _
      exact ⟨[], s, rfl, rfl⟩
    · intro _
      rfl
  | cons w ws ih =>
    intro halnum s
    have hws := fun x hx => halnum x (List.mem_cons_of_mem _ hx)
    cases ws with
    | nil =>
      show w.isPrefixOf s = true ↔ ∃ mid post, s = mid ++ post ∧ LooseDecomp [w] mid
      rw [List.isPrefixOf_iff_prefix]
      constructor
      · rintro ⟨t, ht⟩
        exact ⟨w, t, ht.symm, rfl⟩
      · rintro ⟨mid, post, heq, hd⟩
        have : mid = w := hd
        subst this
        exact ⟨post, heq.symm⟩
    | cons w2 ws2 =>
      show (w.isPrefixOf s && wordsMatchAt (w2 :: ws2)
          ((s.drop w.length).dropWhile sepChar)) = true ↔
        ∃ mid post, s = mid ++ post ∧ LooseDecomp (w :: w2 :: ws2) mid
      rw [Bool.and_eq_true, List.isPrefixOf_iff_prefix]
      constructor
      · rintro ⟨⟨t, ht⟩, hrest⟩
        subst ht
        rw [List.drop_left] at hrest
        obtain ⟨mid', post, heq, hd⟩ := (ih hws _).mp hrest
        refine ⟨w ++ t.takeWhile sepChar ++ mid', post, ?_, ?_⟩
        · conv =>
            lhs
            rw [← List.takeWhile_append_dropWhile sepChar t]
          rw [heq]
          simp
        · exact ⟨t.takeWhile sepChar, mid',
            fun c hc => List.mem_takeWhile_imp hc, by simp, hd⟩
      · rintro ⟨mid, post, heq, hd⟩
        obtain ⟨g, s0, hg, hmid, hd0⟩ := hd
        subst hmid
        subst heq
        constructor
        · exact ⟨g ++ s0 ++ post, by simp⟩
        · have hdrop : ((w ++ g ++ s0 ++ post).drop w.length) = g ++ s0 ++ post := by
            have : w ++ g ++ s0 ++ post = w ++ (g ++ s0 ++ post) := by simp
            rw [this, List.drop_left]
          rw [show (w ++ g ++ s0) ++ post = w ++ g ++ s0 ++ post from by simp,
            hdrop]
          obtain ⟨c0, rest0, hs0, hc0⟩ :=
            looseDecomp_head (w2 :: ws2) s0 hd0 (by simp) hws
          subst hs0
          have : g ++ (c0 :: rest0) ++ post = g ++ c0 :: (rest0 ++ post) := by
            simp
          rw [this, dropWhile_sep_run g hg c0 (rest0 ++ post)
            (sepChar_alnum hc0)]
          exact (ih hws (c0 :: rest0 ++ post)).mpr
            ⟨c0 :: rest0, post, by simp, hd0⟩

/-- looseOccurs decides the existence of a suffix on which the words
match. -/
theorem looseOccurs_iff (ws : List (List Char)) : ∀ s : List Char,
    looseOccurs ws s = true ↔
      ∃ pre rest, s = pre ++ rest ∧ wordsMatchAt ws rest = true := by
  intro s
  induction s with
  | nil =>
    simp only [looseOccurs]
    constructor
    · intro h
      exact ⟨[], [], rfl, h⟩
    · rintro ⟨pre, rest, heq, h⟩
      obtain ⟨e1, e2⟩ := List.append_eq_nil.mp heq.symm
      rw [← e2]
      exact h
  | cons c cs ih =>
    simp only [looseOccurs, Bool.or_eq_true]
    rw [ih]
    constructor
    · rintro (h | ⟨pre, rest, heq, h⟩)
      · exact ⟨[], c :: cs, rfl, h⟩
      · subst heq
        exact ⟨c :: pre, rest, rfl, h⟩
    · rintro ⟨pre, rest, heq, h⟩
      cases pre with
      | nil =>
        simp only [List.nil_append] at heq
        rw [heq]
        exact Or.inl h
      | cons c1 pre' =>
        injection heq with hc1 hs
        subst hs
        exact Or.inr ⟨pre', rest, rfl, h⟩

/-- For non-empty alphanumeric brand words, the compiled loose-punctuation
pattern tests a string exactly when the words occur loosely in it. -/
theorem testRe_eq_looseOccurs (ws : List (List Char)) (hne : ws ≠ [])
    (halnum : ∀ w ∈ ws, w ≠ [] ∧ allAlnum w = true) (s : List Char) :
    testRe (buildCat (patternAtoms ws)) s = looseOccurs ws s := by
  cases hT : testRe (buildCat (patternAtoms ws)) s with
  | true =>
    obtain ⟨pre, mid, post, heq, hm⟩ := (testRe_iff s _).mp hT
    have hd : LooseDecomp ws mid := (rmatch_pattern ws mid hne).mp hm
    have : looseOccurs ws s = true := by
      rw [looseOccurs_iff]
      exact ⟨pre, mid ++ post, by simpa using heq,
        (wordsMatchAt_iff ws halnum (mid ++ post)).mpr ⟨mid, post, rfl, hd⟩⟩
    rw [this]
  | false =>
    cases hL : looseOccurs ws s with
    | false => rfl
    | true =>
      exfalso
      obtain ⟨pre, rest, heq, hwm⟩ := (looseOccurs_iff ws s).mp hL
      obtain ⟨mid, post, hrest, hd⟩ := (wordsMatchAt_iff ws halnum rest).mp hwm
      have : testRe (buildCat (patternAtoms ws)) s = true := by
        rw [testRe_iff]
        exact ⟨pre, mid, post, by rw [heq, hrest]; simp,
          (rmatch_pattern ws mid hne).mpr hd⟩
      rw [this] at hT
      cases hT

/-!
### Parsing the loose-punctuation pattern
-/

/-- Tokenizing an alphanumeric character yields a raw-character token. -/
theorem tokenize_alnum_cons (c : Char) (rest : List Char)
    (hc : isLowerAlnum c = true) :
    tokenize (c :: rest) =
      match tokenize rest with
      | .error e => .error e
      | .ok ts => .ok (.rawch c :: ts) := by
  have hne : ∀ s : Char, isLowerAlnum s = false → ¬(c = s) := by
    intro s hs h
    subst h
    rw [hc] at hs
    cases hs
  rw [tokenize.eq_8 c rest
    (fun h _ => hne '\\' (by decide) h)
    (fun _ _ h _ => hne '\\' (by decide) h)
    (fun _ h _ => hne '[' (by decide) h)
    (fun h => hne '[' (by decide) h)
    (fun _ h _ => hne '(' (by decide) h)
    (fun _ h _ => hne '(' (by decide) h)]
  cases h : tokenize rest with
  | error e => rfl
  | ok ts =>
    show Except.ok (_ :: ts) = Except.ok (Tok.rawch c :: ts)
    rw [if_neg (hne '*' (by decide)), if_neg (hne '+' (by decide)),
      if_neg (hne '?' (by decide)), if_neg (hne '|' (by decide)),
      if_neg (hne '(' (by decide)), if_neg (hne ')' (by decide)),
      if_neg (hne '.' (by decide)), if_neg (hne '^' (by decide)),
      if_neg (hne '$' (by decide)),
      if_neg (hne (Char.ofNat 123) (by decide)),
      if_neg (hne (Char.ofNat 125) (by decide))]

/-- Tokenizing the separator-class-and-star prefix of the pattern. -/
theorem tokenize_sep (rest : List Char) :
    tokenize (sepPatChars ++ rest) =
      match tokenize rest with
      | .error e => .error e
      | .ok ts => .ok (.atom sepCls :: .tstar :: ts) := by
  have step1 : tokenize (sepPatChars ++ rest) =
      Except.bind (Except.bind (tokenize rest)
        (fun ts => Except.ok (Tok.tstar :: ts)))
        (fun ts => Except.ok (Tok.atom sepCls :: ts)) := rfl
  rw [step1]
  cases h : tokenize rest with
  | error e => rfl
  | ok ts => rfl

/-- Tokenizing an alphanumeric word yields its literal atoms. -/
theorem tokenize_word : ∀ (w : List Char), allAlnum w = true → ∀ rest,
    tokenize (w ++ rest) =
      match tokenize rest with
      | .error e => .error e
      | .ok ts => .ok (wordToks w ++ ts) := by
  intro w
  induction w with
  | nil =>
    intro _ rest
    cases h : tokenize rest <;> simp [wordToks, h]
  | cons c w' ih =>
    intro hal rest
    have hc : isLowerAlnum c = true := by
      simp only [allAlnum, List.all_cons, Bool.and_eq_true] at hal
      exact hal.1
    have hw' : allAlnum w' = true := by
      simp only [allAlnum, List.all_cons, Bool.and_eq_true] at hal
      exact hal.2
    rw [List.cons_append, tokenize_alnum_cons c (w' ++ rest) hc, ih hw' rest]
    cases h : tokenize rest <;> simp [wordToks]

/-- Tokenizing the whole pattern built from non-empty alphanumeric words. -/
theorem tokenize_pattern : ∀ (ws : List (List Char)), ws ≠ [] →
    (∀ w ∈ ws, w ≠ [] ∧ allAlnum w = true) →
    tokenize (listJoinSep sepPatChars ws) = .ok (patternToks ws) := by
  intro ws
  induction ws with
  | nil => intro h; exact absurd rfl h
  | cons w ws ih =>
    intro _ halnum
    have hw : allAlnum w = true := (halnum w (by simp)).2
    cases ws with
    | nil =>
      show tokenize (listJoinSep sepPatChars [w]) = .ok (patternToks [w])
      have : listJoinSep sepPatChars [w] = w ++ [] := by
        simp [listJoinSep]
      rw [this, tokenize_word w hw []]
      show Except.ok (wordToks w ++ []) = Except.ok (patternToks [w])
      simp [patternToks]
    | cons w2 ws2 =>
      have hrest := ih (by simp)
        (fun x hx => halnum x (List.mem_cons_of_mem _ hx))
      show tokenize (w ++ sepPatChars ++ listJoinSep sepPatChars (w2 :: ws2)) =
        .ok (patternToks (w :: w2 :: ws2))
      rw [show w ++ sepPatChars ++ listJoinSep sepPatChars (w2 :: ws2) =
        w ++ (sepPatChars ++ listJoinSep sepPatChars (w2 :: ws2)) from by simp]
      rw [tokenize_word w hw _, tokenize_sep _, hrest]
      simp [patternToks]

/-- Feeding a word's literal tokens to the parser pushes the tagged
literals onto the sequence. -/
theorem parseToks_word : ∀ (w : List Char) (stk : List PFrame)
    (alts : List JSRegex) (seq : List (JSRegex × QTag)) (ts : List Tok),
    parseToks ⟨stk, alts, seq, none⟩ (wordToks w ++ ts) =
      parseToks ⟨stk, alts,
        (w.reverse.map (fun c => (JSRegex.lit c, QTag.plain))) ++ seq, none⟩ ts := by
  intro w
  induction w with
  | nil => intro stk alts seq ts; simp [wordToks]
  | cons c w' ih =>
    intro stk alts seq ts
    have step : parseToks ⟨stk, alts, seq, none⟩ (wordToks (c :: w') ++ ts) =
        parseToks ⟨stk, alts, (JSRegex.lit c, QTag.plain) :: seq, none⟩
          (wordToks w' ++ ts) := rfl
    rw [step, ih]
    congr 1
    simp

/-- Feeding the separator class and its star to the parser pushes one
greedy starred atom onto the sequence. -/
theorem parseToks_sepstar (stk : List PFrame) (alts : List JSRegex)
    (seq : List (JSRegex × QTag)) (ts : List Tok) :
    parseToks ⟨stk, alts, seq, none⟩ (.atom sepCls :: .tstar :: ts) =
      parseToks ⟨stk, alts, (JSRegex.star sepCls, QTag.greedy) :: seq, none⟩ ts := rfl

/-- Running the parser over the pattern's tokens accumulates exactly the
tagged atoms, in reverse, and finishes. -/
theorem parseToks_pattern_run : ∀ (ws : List (List Char)), ws ≠ [] →
    ∀ seq : List (JSRegex × QTag),
    parseToks ⟨[], [], seq, none⟩ (patternToks ws) =
      .ok (buildAlts [] (buildSeq ((taggedAtoms ws).reverse ++ seq))) := by
  intro ws
  induction ws with
  | nil => intro h; exact absurd rfl h
  | cons w ws ih =>
    intro _ seq
    cases ws with
    | nil =>
      show parseToks ⟨[], [], seq, none⟩ (patternToks [w]) = _
      have hp : patternToks [w] = wordToks w ++ [] := by simp [patternToks, wordToks]
      rw [hp, parseToks_word]
      show Except.ok (buildAlts [] (buildSeq
        ((w.reverse.map (fun c => (JSRegex.lit c, QTag.plain))) ++ seq))) = _
      congr 2
      simp [taggedAtoms, List.map_reverse]
    | cons w2 ws2 =>
      show parseToks ⟨[], [], seq, none⟩ (patternToks (w :: w2 :: ws2)) = _
      have hp : patternToks (w :: w2 :: ws2) =
          wordToks w ++ (Tok.atom sepCls :: Tok.tstar :: patternToks (w2 :: ws2)) :=
        rfl
      rw [hp, parseToks_word, parseToks_sepstar, ih (by simp)]
      have ht : taggedAtoms (w :: w2 :: ws2) =
          w.map (fun c => (JSRegex.lit c, QTag.plain)) ++
            ((JSRegex.star sepCls, QTag.greedy) :: taggedAtoms (w2 :: ws2)) := rfl
      have hlist : (taggedAtoms (w2 :: ws2)).reverse ++
          ((JSRegex.star sepCls, QTag.greedy) ::
            (w.reverse.map (fun c => (JSRegex.lit c, QTag.plain)) ++ seq)) =
          (taggedAtoms (w :: w2 :: ws2)).reverse ++ seq := by
        rw [ht]
        simp [List.map_reverse]
      rw [hlist]

/-- The reversed accumulated sequence folds to the concatenation of the
untagged atoms. -/
theorem buildSeq_reverse (l : List (JSRegex × QTag)) :
    buildSeq l.reverse = buildCat (l.map Prod.fst) := by
  unfold buildSeq buildCat
  rw [List.foldl_reverse]
  induction l with
  | nil => rfl
  | cons a l ih => simp [List.foldr_cons, ih]

/-- The tagged atoms of the pattern carry exactly the pattern atoms. -/
theorem taggedAtoms_fst : ∀ ws : List (List Char),
    (taggedAtoms ws).map Prod.fst = patternAtoms ws := by
  intro ws
  induction ws with
  | nil => rfl
  | cons w ws ih =>
    cases ws with
    | nil =>
      show (w.map (fun c => (JSRegex.lit c, QTag.plain))).map Prod.fst =
        wordAtoms w
      simp [wordAtoms]
    | cons w2 ws2 =>
      show ((w.map (fun c => (JSRegex.lit c, QTag.plain))) ++
          ((JSRegex.star sepCls, QTag.greedy) :: taggedAtoms (w2 :: ws2))).map
            Prod.fst = patternAtoms (w :: w2 :: ws2)
      rw [List.map_append]
      simp only [List.map_cons]
      rw [ih]
      show (w.map (fun c => (JSRegex.lit c, QTag.plain))).map Prod.fst ++ _ = _
      simp [patternAtoms, wordAtoms]

/-- Parsing the pattern built from non-empty alphanumeric brand words
succeeds and yields the concatenation of word literals and starred
separator classes. -/
theorem parse_pattern (ws : List (List Char)) (hne : ws ≠ [])
    (halnum : ∀ w ∈ ws, w ≠ [] ∧ allAlnum w = true) :
    parseRegex (listJoinSep sepPatChars ws) = .ok (buildCat (patternAtoms ws)) := by
  unfold parseRegex
  rw [tokenize_pattern ws hne halnum]
  show parseToks ⟨[], [], [], none⟩ (patternToks ws) = _
  rw [parseToks_pattern_run ws hne []]
  rw [List.append_nil, buildSeq_reverse, taggedAtoms_fst]
  rfl

/-!
### The claims
-/

/-- C1: the claim states that for non-empty text and brand name the
detector terminates normally and never raises, whatever characters the
brand name contains.  The code violates this: a brand name consisting of a
regex metacharacter flows unescaped into new RegExp, whose construction
throws a SyntaxError.  This theorem evaluates the embedded detector at the
failing input text "hello", brandName "+": the result is the SyntaxError,
not a DetectionResult. -/
theorem c1_detector_throws_on_metachar_brand :
    detectBrandMention "hello" "+" = .error "Nothing to repeat" := rfl

/-- C5: for every non-empty text and non-empty brand name, if the i-th
segment of the text (split on periods and newlines) is the first whose
lower-cased form contains the lower-cased trimmed brand name as a
substring, the detector returns mentioned true with position i+1. -/
theorem c5_exact_substring_pass (text brandName : String) (i : Nat)
    (ht : text ≠ "") (hb : brandName ≠ "")
    (hi : i < (splitChars isDotNl text.data).length)
    (hcont : listContainsSub
      (listToLower ((splitChars isDotNl text.data).get ⟨i, hi⟩))
      (jsTrim (listToLower brandName.data)) = true)
    (hfirst : ∀ j (hj : j < (splitChars isDotNl text.data).length), j < i →
      listContainsSub (listToLower ((splitChars isDotNl text.data).get ⟨j, hj⟩))
        (jsTrim (listToLower brandName.data)) = false) :
    detectBrandMention text brandName = .ok ⟨true, some (i + 1)⟩ :=
  detect_pass1_some (data_ne_nil ht) (data_ne_nil hb)
    (firstIdx_eq_some _ _ i hi hcont hfirst)

/-- Witness for C5 at the end-to-end example of the specification: the
brand Salesforce occurs in the first segment of the generated text, and
the detector reports position 1. -/
theorem c5_witness :
    0 < (splitChars isDotNl
      ("Salesforce is a leading CRM. Others include HubSpot." : String).data).length ∧
    detectBrandMention "Salesforce is a leading CRM. Others include HubSpot."
      "Salesforce" = .ok ⟨true, some 1⟩ :=
  ⟨by decide,
   c5_exact_substring_pass "Salesforce is a leading CRM. Others include HubSpot."
     "Salesforce" 0 (by decide) (by decide) (by decide) (by decide)
     (fun j hj hji => by omega)⟩

/-- C6: every result the detector actually returns satisfies the
DetectionResult invariant: the position is none exactly when mentioned is
false, and a positive integer whenever mentioned is true.  (On inputs
where the detector throws there is no result; termination itself is claim
C1.) -/
theorem c6_detection_result_invariant (text brandName : String)
    (r : DetectionResult) (h : detectBrandMention text brandName = .ok r) :
    (r.mentioned = false ↔ r.position = none) ∧
    (r.mentioned = true → ∃ n : Nat, r.position = some n ∧ 0 < n) := by
  rcases detect_ok_shape text brandName r h with h0 | ⟨i, h0⟩ <;> subst h0
  · simp
  · refine ⟨by simp, fun _ => ⟨i + 1, by simp⟩⟩

/-- Witness for C6 at a concrete hit: detect "hi" "hi" returns mentioned
true at position 1, which satisfies the invariant. -/
theorem c6_witness :
    ((⟨true, some 1⟩ : DetectionResult).mentioned = false ↔
      (⟨true, some 1⟩ : DetectionResult).position = none) ∧
    ((⟨true, some 1⟩ : DetectionResult).mentioned = true →
      ∃ n : Nat, (⟨true, some 1⟩ : DetectionResult).position = some n ∧ 0 < n) :=
  c6_detection_result_invariant "hi" "hi" ⟨true, some 1⟩ rfl

/-- C9: the detector answers a miss, without error and without running any
matching pass, when either argument is empty: the guard returns
immediately. -/
theorem c9_empty_arguments :
    (∀ text : String, text ≠ "" →
      detectBrandMention text "" = .ok ⟨false, none⟩) ∧
    (∀ brandName : String, brandName ≠ "" →
      detectBrandMention "" brandName = .ok ⟨false, none⟩) := by
  constructor
  · intro text _
    exact detect_empty (Or.inr rfl)
  · intro brandName _
    exact detect_empty (Or.inl rfl)

/-- Witness for C9 at the non-empty argument "x" on both sides. -/
theorem c9_witness :
    ("x" : String) ≠ "" ∧
    detectBrandMention "x" "" = .ok ⟨false, none⟩ ∧
    detectBrandMention "" "x" = .ok ⟨false, none⟩ :=
  ⟨by decide, c9_empty_arguments.1 "x" (by decide),
    c9_empty_arguments.2 "x" (by decide)⟩

/-- C10: a brand name that is non-empty but all whitespace trims to the
empty string, which the first segment always includes, so the detector
reports a mention at position 1 for every non-empty text. -/
theorem c10_whitespace_brand (text brandName : String)
    (ht : text ≠ "") (hb : brandName ≠ "")
    (hws : ∀ c ∈ brandName.data, jsIsWs c = true) :
    detectBrandMention text brandName = .ok ⟨true, some 1⟩ := by
  have hlower : ∀ c ∈ listToLower brandName.data, jsIsWs c = true := by
    intro c hc
    obtain ⟨c0, hc0, hceq⟩ := List.mem_map.mp hc
    rw [← hceq, toLower_ws (hws c0 hc0)]
    exact hws c0 hc0
  have hbl : jsTrim (listToLower brandName.data) = [] := jsTrim_ws_nil _ hlower
  obtain ⟨s0, rest, hsplit⟩ :=
    List.exists_cons_of_ne_nil (splitChars_ne_nil isDotNl text.data)
  have hp1 : pass1 (splitChars isDotNl text.data)
      (jsTrim (listToLower brandName.data)) = some 0 := by
    rw [hbl]
    unfold pass1
    rw [hsplit]
    simp [firstIdx, listContainsSub_nil]
  exact detect_pass1_some (data_ne_nil ht) (data_ne_nil hb) hp1

/-- Witness for C10 at text "hi" and the single-space brand name. -/
theorem c10_witness :
    (∀ c ∈ (" " : String).data, jsIsWs c = true) ∧
    detectBrandMention "hi" " " = .ok ⟨true, some 1⟩ :=
  ⟨by decide, c10_whitespace_brand "hi" " " (by decide) (by decide) (by decide)⟩

/-- C2, counterexample to the claim as stated: at text "......abcde" and
brand name "a-bcde", some whitespace-delimited word of the text (the word
"......abcde", stripped to "abcde") and the stripped brand (also "abcde")
both exceed three characters and contain one another, and neither earlier
pass matches; yet the detector returns mentioned false, because the
stripped word never occurs contiguously in the text, indexOf is -1 only
relative to the dots, and the accumulated segment lengths (five) never
reach the index of the occurrence (six) - the claim asserts it returns
mentioned true. -/
theorem c2_counterexample :
    (∃ hi : 0 < (splitRuns jsIsWs
        (listToLower ("......abcde" : String).data)).length,
      qualifiesWord (stripNonAlnum (jsTrim (listToLower ("a-bcde" : String).data)))
        ((splitRuns jsIsWs (listToLower ("......abcde" : String).data)).get
          ⟨0, hi⟩) = true) ∧
    detectBrandMention "......abcde" "a-bcde" = .ok ⟨false, none⟩ :=
  ⟨⟨by decide, by decide⟩, rfl⟩

/-- C2 as amended: for every text and brand name whose trimmed lower-cased
characters stay inside the exactly-modelled pattern subset (no backslash,
opening bracket, opening parenthesis or anchor character), on which the
first two passes complete without a match, if the i-th
whitespace-delimited word of the lower-cased text is the first whose
stripped form, together with the stripped brand, exceeds three characters
with one containing the other, and the segment-locating accumulation for
that word reaches the index of the first occurrence of the stripped word
at segment j (as it does whenever the stripped word occurs in the text),
then the detector returns mentioned true with the 1-based position j+1;
when the accumulation never reaches the index, the word is skipped (and
the detector can answer mentioned false, as the counterexample shows). -/
theorem c2_partial_word_position (text brandName : String) (re : JSRegex)
    (i j : Nat)
    (ht : text ≠ "") (hb : brandName ≠ "")
    (_hsafe : ∀ c ∈ jsTrim (listToLower brandName.data), safePatChar c = true)
    (h1 : ∀ s ∈ splitChars isDotNl text.data,
      listContainsSub (listToLower s) (jsTrim (listToLower brandName.data)) = false)
    (hre : parseRegex (listJoinSep sepPatChars
      (splitRuns jsIsWs (jsTrim (listToLower brandName.data)))) = .ok re)
    (h2 : ∀ s ∈ splitChars isDotNl text.data, testRe re (listToLower s) = false)
    (hi : i < (splitRuns jsIsWs (listToLower text.data)).length)
    (hq : qualifiesWord (stripNonAlnum (jsTrim (listToLower brandName.data)))
      ((splitRuns jsIsWs (listToLower text.data)).get ⟨i, hi⟩) = true)
    (hfirst : ∀ k (hk : k < (splitRuns jsIsWs (listToLower text.data)).length),
      k < i → qualifiesWord (stripNonAlnum (jsTrim (listToLower brandName.data)))
        ((splitRuns jsIsWs (listToLower text.data)).get ⟨k, hk⟩) = false)
    (hseg : findSegment (splitChars isDotNl text.data)
      (jsIndexOf (listToLower text.data)
        (stripNonAlnum ((splitRuns jsIsWs (listToLower text.data)).get ⟨i, hi⟩)))
      = some j) :
    detectBrandMention text brandName = .ok ⟨true, some (j + 1)⟩ :=
  detect_pass3_some (data_ne_nil ht) (data_ne_nil hb)
    (firstIdx_eq_none _ _ h1) hre (firstIdx_eq_none _ _ h2)
    (pass3_first_qualifying _ _ _ _ i hi j hq hfirst hseg)

/-- Witness for C2 at text "zzzz. ab-cd" and brand "abcd": the second word
strips to "abcd", the accumulation at indexOf -1 stops at the first
segment, and the detector answers position 1. -/
theorem c2_witness :
    (∃ hi : 1 < (splitRuns jsIsWs
        (listToLower ("zzzz. ab-cd" : String).data)).length,
      qualifiesWord (stripNonAlnum (jsTrim (listToLower ("abcd" : String).data)))
        ((splitRuns jsIsWs (listToLower ("zzzz. ab-cd" : String).data)).get
          ⟨1, hi⟩) = true) ∧
    detectBrandMention "zzzz. ab-cd" "abcd" = .ok ⟨true, some 1⟩ :=
  ⟨⟨by decide, by decide⟩,
   c2_partial_word_position "zzzz. ab-cd" "abcd"
     (.cat (.lit 'a') (.cat (.lit 'b') (.cat (.lit 'c') (.cat (.lit 'd') .eps))))
     1 0 (by decide) (by decide) (by decide) (by decide) rfl (by decide)
     (by decide)
     (by decide)
     (fun k hk hk1 => by
        have hk0 : k = 0 := by omega
        subst hk0
        show qualifiesWord (stripNonAlnum (jsTrim (listToLower ("abcd" : String).data)))
          ("zzzz.".data) = false
        decide)
     (by decide)⟩

/-- C3, counterexample to the claim as stated: in a run where every
candidate model fails, the outcome does carry the canned text with the
fallback flag set, but modelUsed is not null - it keeps its initial value,
the first configured model name. -/
theorem c3_counterexample :
    (∀ m ∈ MODEL_OPTIONS, candidateFailsAlways (fun _ => .fail) m) ∧
    (runOrchestration (fun _ => .fail) MODEL_OPTIONS).geminiResponse
      = getCannedResponse ∧
    (runOrchestration (fun _ => .fail) MODEL_OPTIONS).usedCannedResponse = true ∧
    (runOrchestration (fun _ => .fail) MODEL_OPTIONS).modelUsed ≠ none := by
  refine ⟨fun _ _ => Or.inl rfl, rfl, rfl, ?_⟩
  intro hcontra
  have : (runOrchestration (fun _ => .fail) MODEL_OPTIONS).modelUsed
      = some MODEL_NAME := rfl
  rw [this] at hcontra
  cases hcontra

/-- C3 as amended: when every candidate fails (or yields only
empty/whitespace text), the outcome has the canned text and the fallback
flag, but modelUsed holds the default first candidate name rather than
null; indeed modelUsed is never null in any outcome, so the claimed
equivalence of a null modelUsed with the fallback flag does not hold. -/
theorem c3_total_failure_fallback :
    (∀ (env : String → CallResult) (options : List String),
      (∀ m ∈ options, candidateFailsAlways env m) →
      runOrchestration env options = ⟨getCannedResponse, true, some MODEL_NAME⟩) ∧
    (∀ (env : String → CallResult) (options : List String),
      (runOrchestration env options).modelUsed ≠ none) := by
  constructor
  · intro env options h
    unfold runOrchestration
    rw [tryModels_all_fail env options h none]
  · intro env options
    unfold runOrchestration
    cases tryModels env none options with
    | none => simp
    | some p => simp

/-- Witness for C3 at the everywhere-failing environment over the
configured model list. -/
theorem c3_witness :
    runOrchestration (fun _ => .fail) MODEL_OPTIONS
      = ⟨getCannedResponse, true, some MODEL_NAME⟩ ∧
    (runOrchestration (fun _ => .fail) ["m"]).modelUsed ≠ none :=
  ⟨c3_total_failure_fallback.1 (fun _ => .fail) MODEL_OPTIONS
      (fun _ _ => Or.inl rfl),
   c3_total_failure_fallback.2 (fun _ => .fail) ["m"]⟩

/-- C4: the orchestrator tries the candidates in list order; candidates
that throw or whose extraction yields only empty or whitespace text are
skipped, and the first candidate producing non-empty text determines the
outcome exactly: its text, its identifier, and no fallback.  The failures
of the earlier candidates are invisible in the outcome. -/
theorem c4_first_producing_candidate (env : String → CallResult)
    (pre rest : List String) (m t : String)
    (hpre : ∀ x ∈ pre, candidateFailsAlways env x)
    (hm : candidateProduces env m t) :
    runOrchestration env (pre ++ m :: rest) = ⟨t, false, some m⟩ := by
  unfold runOrchestration
  rw [tryModels_first_success env m t pre rest hpre hm none]

/-- Witness for C4 at the candidate list A, B, C of the specification,
where A throws, B yields whitespace only and C yields "hello": the outcome
is C's text under C's name with no fallback. -/
theorem c4_witness :
    (∀ x ∈ ["A", "B"], candidateFailsAlways
      (fun n => if n = "B" then .respond ⟨some (.ok "  "), []⟩
                else if n = "C" then .respond ⟨some (.ok "hello"), []⟩
                else .fail) x) ∧
    runOrchestration
      (fun n => if n = "B" then .respond ⟨some (.ok "  "), []⟩
                else if n = "C" then .respond ⟨some (.ok "hello"), []⟩
                else .fail) ["A", "B", "C"] = ⟨"hello", false, some "C"⟩ := by
  have henv : ∀ x ∈ ["A", "B"], candidateFailsAlways
      (fun n => if n = "B" then .respond ⟨some (.ok "  "), []⟩
                else if n = "C" then .respond ⟨some (.ok "hello"), []⟩
                else .fail) x := by
    intro x hx
    simp only [List.mem_cons, List.not_mem_nil, or_false] at hx
    rcases hx with rfl | rfl
    · exact Or.inl rfl
    · exact Or.inr ⟨⟨some (.ok "  "), []⟩, rfl, fun prev => rfl⟩
  refine ⟨henv, ?_⟩
  exact c4_first_producing_candidate _ ["A", "B"] [] "C" "hello" henv
    ⟨⟨some (.ok "hello"), []⟩, rfl, fun prev => rfl, rfl⟩

/-- C8: the claim states that the handler's error branch always returns a
structured success payload built from the canned text.  The code violates
this: the branch reruns the detector on the canned text, and for a brand
name such as "+" the detector itself throws (the unescaped RegExp
construction), so the failure escapes the branch instead of producing the
payload.  This theorem evaluates the embedded catch branch at the failing
input brandName "+". -/
theorem c8_catch_branch_throws :
    handlerCatchBranch "+" = .error "Nothing to repeat" := rfl

/-- C7, counterexample to the claim as stated: for the multi-word brand
name "x +y" and the text "x-+y.", no segment contains the trimmed brand
verbatim, and the first segment contains the brand words in order joined
by a hyphen; yet the detector does not return mentioned true - it throws,
because the brand words flow unescaped into the pattern "x[\s\-\_]*+y",
whose construction is a SyntaxError. -/
theorem c7_counterexample :
    2 ≤ (splitRuns jsIsWs (jsTrim (listToLower ("x +y" : String).data))).length ∧
    (∀ s ∈ splitChars isDotNl ("x-+y." : String).data,
      listContainsSub (listToLower s)
        (jsTrim (listToLower ("x +y" : String).data)) = false) ∧
    looseOccurs (splitRuns jsIsWs (jsTrim (listToLower ("x +y" : String).data)))
      (listToLower ("x-+y" : String).data) = true ∧
    detectBrandMention "x-+y." "x +y" = .error "Nothing to repeat" :=
  ⟨by decide, by decide, by decide, rfl⟩

/-- C7 as amended: for every text and every multi-word brand name whose
trimmed lower-cased words are non-empty and alphanumeric, when no segment
contains the trimmed brand verbatim and the i-th segment is the first that
contains the brand words in order separated by zero-or-more whitespace,
hyphen or underscore characters, the detector returns mentioned true with
position i+1.  (Restricting to alphanumeric words excludes the
regex-metacharacter brands of the counterexample; the separator reading
whitespace rather than only the space character is what the \s in the
built pattern matches.) -/
theorem c7_loose_punctuation_pass (text brandName : String)
    (ws : List (List Char)) (i : Nat)
    (ht : text ≠ "") (hb : brandName ≠ "")
    (hwords : splitRuns jsIsWs (jsTrim (listToLower brandName.data)) = ws)
    (hmulti : 2 ≤ ws.length)
    (halnum : ∀ w ∈ ws, w ≠ [] ∧ allAlnum w = true)
    (h1 : ∀ s ∈ splitChars isDotNl text.data,
      listContainsSub (listToLower s)
        (jsTrim (listToLower brandName.data)) = false)
    (hi : i < (splitChars isDotNl text.data).length)
    (hocc : looseOccurs ws
      (listToLower ((splitChars isDotNl text.data).get ⟨i, hi⟩)) = true)
    (hfirst : ∀ j (hj : j < (splitChars isDotNl text.data).length), j < i →
      looseOccurs ws
        (listToLower ((splitChars isDotNl text.data).get ⟨j, hj⟩)) = false) :
    detectBrandMention text brandName = .ok ⟨true, some (i + 1)⟩ := by
  have hne : ws ≠ [] := by
    intro h
    subst h
    simp at hmulti
  have hre : parseRegex (listJoinSep sepPatChars
      (splitRuns jsIsWs (jsTrim (listToLower brandName.data)))) =
      .ok (buildCat (patternAtoms ws)) := by
    rw [hwords]
    exact parse_pattern ws hne halnum
  have htest : ∀ s : List Char,
      testRe (buildCat (patternAtoms ws)) (listToLower s) =
        looseOccurs ws (listToLower s) :=
    fun s => testRe_eq_looseOccurs ws hne halnum _
  apply detect_pass2_some (data_ne_nil ht) (data_ne_nil hb)
    (firstIdx_eq_none _ _ h1) hre
  unfold pass2
  exact firstIdx_eq_some _ _ i hi
    (by rw [htest]; exact hocc)
    (fun j hj hji => by rw [htest]; exact hfirst j hj hji)

/-- Witness for C7 at the example of the specification: the brand
"Acme Corp" occurs hyphenated in the first segment, and the detector
reports position 1. -/
theorem c7_witness :
    (∀ w ∈ [("acme" : String).data, ("corp" : String).data],
      w ≠ [] ∧ allAlnum w = true) ∧
    detectBrandMention "We recommend Acme-Corp for this." "Acme Corp" =
      .ok ⟨true, some 1⟩ := by
  refine ⟨by decide, ?_⟩
  have := c7_loose_punctuation_pass "We recommend Acme-Corp for this."
    "Acme Corp" [("acme" : String).data, ("corp" : String).data] 0
    (by decide) (by decide) (by decide) (by decide) (by decide) (by decide)
    (by decide) (by decide)
    (fun j hj hj0 => absurd hj0 (by omega))
  simpa using this

end Enlighten
